import Mathlib

/-!
# Expense tracker: a shallow embedding of `ExpenseTracker.cpp` and of its test harness

Modelling conventions.

* A `std::string` is a Lean `String`; one C++ `char` is one Lean `Char`, `length()` is the
  number of characters, `s[i]` is the `i`-th character and the relational operators are the
  lexicographic order on characters.
* A `float` amount is an exact rational number (`ℚ`): rounding is outside the model.
* `int` counters are natural numbers: a store of more than `2^30` slots, on which
  `capacity *= 2` would leave the range of `int`, is outside the model.
* The heap array `Expense **expenses` is a list of slots, a slot being `none` until a pointer
  has been stored in it.  Reading or writing outside the array, and dereferencing an unwritten
  slot, have no defined result: the model returns `none` there.
* In `resize`, `addExpense` and `addExpenses` every `new` succeeds.  The functions
  `resizeAlloc` and `addExpensesAlloc` are the production `resize` and `addExpenses` with the
  outcome of each `new` as an argument: they also follow the `catch` blocks that a
  `std::bad_alloc` reaches.
* Console output is returned as a value (the lines printed by a query, the message of an
  insertion).
-/

namespace ExpenseApp

/-! ## Data model -/

/-- The record `struct Expense`. -/
structure Expense where
  date : String
  amount : ℚ
  category : String
  description : String
deriving DecidableEq

/-- The constant `INITIAL_CAPACITY`. -/
def INITIAL_CAPACITY : Nat := 10

/-- The constant `MAX_CATEGORIES`. -/
def MAX_CATEGORIES : Nat := 50

/-- The three data members `expenses`, `capacity`, `size`, which the classes `ExpenseTracker`
and `TestableExpenseTracker` both declare. -/
structure Tracker where
  expenses : List (Option Expense)
  capacity : Nat
  size : Nat
deriving DecidableEq

/-! ## Primitive operations of the language -/

/-- The expression `s[i]` on a string; `s[s.length()]` is the null character. -/
def charAt (s : String) (i : Nat) : Char := s.data.getD i (Char.ofNat 0)

/-- The library function `isdigit` in the C locale. -/
def isdigit (c : Char) : Bool := decide ('0' ≤ c ∧ c ≤ '9')

/-- The member function `std::string::empty`. -/
def empty (s : String) : Bool := s.length == 0

/-- The store `arr[i] = v` into an array: undefined outside the array. -/
def writeAt {α : Type} (arr : List α) (i : Nat) (v : α) : Option (List α) :=
  if i < arr.length then some (arr.set i v) else none

/-- The access `expenses[i]->...`: undefined outside the array and on an unwritten slot. -/
def deref (arr : List (Option Expense)) (i : Nat) : Option Expense :=
  match arr[i]? with
  | some (some e) => some e
  | _ => none

/-- The loop `for (int i = 0; i < size; ++i) body(expenses[i])` over an accumulator. -/
def forEach {σ : Type} (t : Tracker) (body : σ → Expense → Option σ) (init : σ) : Option σ :=
  (List.range t.size).foldlM (fun s i => (deref t.expenses i).bind (body s)) init

/-! ## Free functions -/

/-- The function `isValidDate` (the test harness holds a verbatim copy of it). -/
def isValidDate (date : String) : Bool :=
  if date.length != 10 then false
  else if charAt date 4 != '-' || charAt date 7 != '-' then false
  else (List.range 10).all (fun i => i == 4 || i == 7 || isdigit (charAt date i))

/-! ## Construction and growth (the same code in both classes) -/

/-- The constructor: capacity `INITIAL_CAPACITY`, size `0`, a fresh array. -/
def Tracker.ctor : Tracker :=
  { expenses := List.replicate INITIAL_CAPACITY none, capacity := INITIAL_CAPACITY, size := 0 }

/-- The copy loop of `resize`: `newArr[i] = expenses[i]` for `i < size`. -/
def copyLoop (src : List (Option Expense)) (size : Nat) (newArr : List (Option Expense)) :
    Option (List (Option Expense)) :=
  (List.range size).foldlM (fun arr i => (src[i]?).bind (writeAt arr i)) newArr

/-- The member function `resize`: doubles `capacity`, allocates, copies, replaces the array. -/
def resize (t : Tracker) : Option Tracker :=
  let capacity := t.capacity * 2
  (copyLoop t.expenses t.size (List.replicate capacity none)).map
    (fun newArr => { expenses := newArr, capacity := capacity, size := t.size })

/-- The statement `if (size >= capacity) resize();`. -/
def growIfFull (t : Tracker) : Option Tracker :=
  if t.size ≥ t.capacity then resize t else some t

/-- The statement `expenses[size++] = new Expense{...}`. -/
def push (t : Tracker) (e : Expense) : Option Tracker :=
  (writeAt t.expenses t.size (some e)).map
    (fun arr => { expenses := arr, capacity := t.capacity, size := t.size + 1 })

/-! ## The test harness: `TestableExpenseTracker` -/

namespace TestableExpenseTracker

/-- The member function `addExpense`: the new state and the returned flag. -/
def addExpense (t : Tracker) (date : String) (amount : ℚ) (category description : String) :
    Option (Tracker × Bool) :=
  if !isValidDate date || amount ≤ 0 || empty category || empty description then
    some (t, false)
  else
    (growIfFull t).bind fun t1 =>
      (push t1 ⟨date, amount, category, description⟩).map fun t2 => (t2, true)

/-- The member function `getSize`. -/
def getSize (t : Tracker) : Nat := t.size

/-- The member function `getTotalAmount`. -/
def getTotalAmount (t : Tracker) : Option ℚ :=
  forEach t (fun total e => some (total + e.amount)) 0

/-- The member function `countByCategory`. -/
def countByCategory (t : Tracker) (category : String) : Option Nat :=
  forEach t (fun count e => some (if e.category = category then count + 1 else count)) 0

/-- The member function `countByDateRange`. -/
def countByDateRange (t : Tracker) (startDate endDate : String) : Option Nat :=
  forEach t
    (fun count e => some (if e.date ≥ startDate ∧ e.date ≤ endDate then count + 1 else count)) 0

end TestableExpenseTracker

/-! ## The production class: `ExpenseTracker` -/

/-- The message printed by `addExpenses`. -/
inductive AddMessage where
  | categoryEmpty
  | descriptionEmpty
  | added
  | resizeFailed
  | allocationFailed
deriving DecidableEq

namespace ExpenseTracker

/-- The member function `addExpenses`: the new state and the message printed. -/
def addExpenses (t : Tracker) (date : String) (amount : ℚ) (category description : String) :
    Option (Tracker × AddMessage) :=
  (growIfFull t).bind fun t1 =>
    if empty category then some (t1, AddMessage.categoryEmpty)
    else if empty description then some (t1, AddMessage.descriptionEmpty)
    else (push t1 ⟨date, amount, category, description⟩).map fun t2 => (t2, AddMessage.added)

/-- The member function `resize` when the outcome of `new Expense *[capacity]` is given:
`capacity *= 2` runs first, and when `new` throws the handler prints and rethrows, with the old
array still in place.  The flag tells whether `std::bad_alloc` leaves the function. -/
def resizeAlloc (arrayOk : Bool) (t : Tracker) : Option (Tracker × Bool) :=
  let capacity := t.capacity * 2
  if arrayOk then
    (copyLoop t.expenses t.size (List.replicate capacity none)).map
      (fun newArr => ({ expenses := newArr, capacity := capacity, size := t.size }, false))
  else some ({ expenses := t.expenses, capacity := capacity, size := t.size }, true)

/-- The member function `addExpenses` when the outcomes of `new Expense *[capacity]` (in
`resize`) and of `new Expense` are given: a `std::bad_alloc` is caught, a message is printed
and the function returns normally with the state reached so far. -/
def addExpensesAlloc (arrayOk expenseOk : Bool) (t : Tracker) (date : String) (amount : ℚ)
    (category description : String) : Option (Tracker × AddMessage) :=
  (if t.size ≥ t.capacity then resizeAlloc arrayOk t else some (t, false)).bind fun r =>
    if r.2 then some (r.1, AddMessage.resizeFailed)
    else if empty category then some (r.1, AddMessage.categoryEmpty)
    else if empty description then some (r.1, AddMessage.descriptionEmpty)
    else if !expenseOk then some (r.1, AddMessage.allocationFailed)
    else (push r.1 ⟨date, amount, category, description⟩).map fun t2 => (t2, AddMessage.added)

/-- The lines printed by a filter, in printing order, and the final value of `found`. -/
structure FilterReport where
  lines : List Expense
  found : Bool
deriving DecidableEq

/-- The selection loop shared by the two filters: a record that satisfies the test is printed
and sets `found`. -/
def selectLoop (t : Tracker) (test : Expense → Bool) : Option FilterReport :=
  forEach t (fun r e => some (if test e then ⟨r.lines ++ [e], true⟩ else r)) ⟨[], false⟩

/-- The member function `filterByDateRange`, from the two dates that `getValidDate` returned:
the swap step, then the selection loop. -/
def filterByDateRange (t : Tracker) (startDate endDate : String) : Option FilterReport :=
  let bounds := if startDate > endDate then (endDate, startDate) else (startDate, endDate)
  selectLoop t (fun e => decide (e.date ≥ bounds.1) && decide (e.date ≤ bounds.2))

/-- What `filterByCategory` prints: the error message or the selected lines. -/
inductive CategoryOutput where
  | categoryEmpty
  | report (r : FilterReport)
deriving DecidableEq

/-- The member function `filterByCategory`, from the line read into `categoryItem`. -/
def filterByCategory (t : Tracker) (categoryItem : String) : Option CategoryOutput :=
  if empty categoryItem then some CategoryOutput.categoryEmpty
  else (selectLoop t (fun e => decide (e.category = categoryItem))).map CategoryOutput.report

/-- The local variables of `getSummary`, and the number of warnings printed so far. -/
structure SummaryState where
  uniqueCategories : List String
  totals : List ℚ
  categoryCount : Nat
  totalExpenses : ℚ
  warnings : Nat
deriving DecidableEq

/-- The inner loop of `getSummary`, `for (j; j < categoryCount; ++j)`, from index `j` with
`fuel` iterations left: the array `totals` and the flag `found` when the loop is left. -/
def scanCategories (e : Expense) (uniqueCategories : List String) (totals : List ℚ) :
    Nat → Nat → Option (List ℚ × Bool)
  | 0, _ => some (totals, false)
  | fuel + 1, j =>
    (uniqueCategories[j]?).bind fun c =>
      if e.category = c then
        (totals[j]?).bind fun old => (writeAt totals j (old + e.amount)).map fun ts => (ts, true)
      else scanCategories e uniqueCategories totals fuel (j + 1)

/-- One iteration of the outer loop of `getSummary`. -/
def summaryStep (s : SummaryState) (e : Expense) : Option SummaryState :=
  (scanCategories e s.uniqueCategories s.totals s.categoryCount 0).bind fun scan =>
    let s1 : SummaryState := { s with totals := scan.1 }
    let added : Option SummaryState :=
      if !scan.2 then
        if s1.categoryCount < MAX_CATEGORIES then
          (writeAt s1.uniqueCategories s1.categoryCount e.category).bind fun cats =>
            (writeAt s1.totals s1.categoryCount e.amount).map fun ts =>
              { s1 with uniqueCategories := cats, totals := ts,
                        categoryCount := s1.categoryCount + 1 }
        else some { s1 with warnings := s1.warnings + 1 }
      else some s1
    added.map fun s2 => { s2 with totalExpenses := s2.totalExpenses + e.amount }

/-- The local variables of `getSummary` before its loop. -/
def summaryInit : SummaryState :=
  { uniqueCategories := List.replicate MAX_CATEGORIES "",
    totals := List.replicate MAX_CATEGORIES 0,
    categoryCount := 0, totalExpenses := 0, warnings := 0 }

/-- What `getSummary` prints: the no-expenses message, or the breakdown and the grand total
held by its local variables after the loop. -/
inductive SummaryOutput where
  | noExpenses
  | report (s : SummaryState)
deriving DecidableEq

/-- The member function `getSummary`. -/
def getSummary (t : Tracker) : Option SummaryOutput :=
  if t.size = 0 then some SummaryOutput.noExpenses
  else (forEach t summaryStep summaryInit).map SummaryOutput.report

/-- The breakdown printed by `getSummary`: the pairs `(uniqueCategories[i], totals[i])` for
`i < categoryCount`. -/
def SummaryState.breakdown (s : SummaryState) : List (String × ℚ) :=
  (s.uniqueCategories.take s.categoryCount).zip (s.totals.take s.categoryCount)

end ExpenseTracker

/-! ## Sequences of calls -/

/-- The calls `tracker.addExpense(e.date, e.amount, e.category, e.description)` for the records
`e` of `l`, one after another, the returned flags being dropped as in the loop of
`test_memory_management`. -/
def TestableExpenseTracker.addAll (t : Tracker) (l : List Expense) : Option Tracker :=
  l.foldlM (fun t e =>
    (TestableExpenseTracker.addExpense t e.date e.amount e.category e.description).map
      Prod.fst) t

/-- The calls `et.addExpenses(e.date, e.amount, e.category, e.description)` for the records `e`
of `l`, one after another. -/
def ExpenseTracker.addAll (t : Tracker) (l : List Expense) : Option Tracker :=
  l.foldlM (fun t e =>
    (ExpenseTracker.addExpenses t e.date e.amount e.category e.description).map Prod.fst) t

/-- The states of the production tracker that the constructor followed by any number of calls
of `addExpenses` can produce, with any arguments and any outcome of the allocations. -/
inductive ExpenseTracker.Reachable : Tracker → Prop where
  | ctor : ExpenseTracker.Reachable Tracker.ctor
  | step (arrayOk expenseOk : Bool) (t t1 : Tracker) (msg : AddMessage) (date : String)
      (amount : ℚ) (category description : String) :
      ExpenseTracker.Reachable t →
      ExpenseTracker.addExpensesAlloc arrayOk expenseOk t date amount category description
        = some (t1, msg) →
      ExpenseTracker.Reachable t1

/-! ## Observation of a state -/

/-- The stored sequence: what the slots `expenses[0 .. size)` point to, in order. -/
def records (t : Tracker) : List Expense := (t.expenses.take t.size).reduceOption

/-- The states a tracker object can be in: the array has `capacity` slots, `capacity` is
positive, and exactly the first `size` slots have been written. -/
def WF (t : Tracker) : Prop :=
  t.expenses.length = t.capacity ∧ 0 < t.capacity ∧ t.size ≤ t.capacity ∧
    ∀ i, i < t.size → ∃ e, t.expenses[i]? = some (some e)

/-- A state holding the records `l` in an array of `l.length + spare` slots. -/
def ofList (l : List Expense) (spare : Nat) : Tracker :=
  { expenses := l.map some ++ List.replicate spare none,
    capacity := l.length + spare, size := l.length }

/-! ## Reference notions used to state the properties -/

/-- The categories of the stored records, in insertion order. -/
def categoriesOf (l : List Expense) : List String := l.map (fun e => e.category)

/-- The sum of the amounts of a list of records. -/
def amountSum (l : List Expense) : ℚ := (l.map (fun e => e.amount)).sum

/-- The sum of the amounts of the records of `l` whose category is `c`. -/
def categoryTotal (l : List Expense) (c : String) : ℚ :=
  amountSum (l.filter (fun e => decide (e.category = c)))

/-- The distinct elements of a list in the order of their first appearance. -/
def firstSeen (cs : List String) : List String :=
  cs.foldl (fun acc c => if c ∈ acc then acc else acc ++ [c]) []

/-- A valid expense: a format-valid date, a positive amount, a non-empty category and a
non-empty description. -/
def ValidExpense (e : Expense) : Prop :=
  isValidDate e.date = true ∧ 0 < e.amount ∧ e.category ≠ "" ∧ e.description ≠ ""

instance (e : Expense) : Decidable (ValidExpense e) :=
  inferInstanceAs (Decidable (_ ∧ _ ∧ _ ∧ _))

/-- The value of a decimal digit character. -/
def digitValue (c : Char) : Nat := c.toNat - '0'.toNat

/-- The number written in decimal by a list of digit characters. -/
def decimal (cs : List Char) : Nat := cs.foldl (fun n c => 10 * n + digitValue c) 0

/-- The year of a date string `YYYY-MM-DD`: its characters 0 to 3 read in decimal. -/
def yearOf (s : String) : Nat := decimal (s.data.take 4)

/-- The month of a date string `YYYY-MM-DD`: its characters 5 and 6 read in decimal. -/
def monthOf (s : String) : Nat := decimal ((s.data.drop 5).take 2)

/-- The day of a date string `YYYY-MM-DD`: its characters 8 and 9 read in decimal. -/
def dayOf (s : String) : Nat := decimal ((s.data.drop 8).take 2)

/-- Chronological order of two date strings: the triple (year, month, day) of the first is
lexicographically smaller than that of the second. -/
def chronoLt (a b : String) : Prop :=
  yearOf a < yearOf b ∨ (yearOf a = yearOf b ∧
    (monthOf a < monthOf b ∨ (monthOf a = monthOf b ∧ dayOf a < dayOf b)))

/-- The relation kept by the loop of `getSummary` between the records `l` processed so far and
its local variables: both arrays keep their `MAX_CATEGORIES` cells, the used cells of
`uniqueCategories` are the first `MAX_CATEGORIES` distinct categories of `l` in first-seen
order, each used cell of `totals` is the total of its category, and `totalExpenses` is the sum
of all amounts. -/
def SummaryInv (l : List Expense) (s : ExpenseTracker.SummaryState) : Prop :=
  s.uniqueCategories.length = MAX_CATEGORIES ∧ s.totals.length = MAX_CATEGORIES ∧
  s.categoryCount ≤ MAX_CATEGORIES ∧
  s.uniqueCategories.take s.categoryCount
    = (firstSeen (categoriesOf l)).take MAX_CATEGORIES ∧
  s.totals.take s.categoryCount
    = (s.uniqueCategories.take s.categoryCount).map (categoryTotal l) ∧
  s.totalExpenses = amountSum l

/-! ## Example states -/

/-- The store built by `test_filtering`: four records in the initial array of ten slots. -/
def filteringStore : Tracker :=
  ofList [⟨"2025-05-01", 1599 / 100, "Food", "Lunch"⟩, ⟨"2025-05-02", 50, "Transport", "Gas"⟩,
    ⟨"2025-05-03", 51 / 2, "Food", "Dinner"⟩,
    ⟨"2025-05-05", 100, "Entertainment", "Concert"⟩] 6

/-- The store of `test_memory_management` after its first ten insertions: the initial array of
ten slots is full (`size = capacity = 10`). -/
def fullStore : Tracker :=
  ofList ((List.range 10).map (fun i =>
    ⟨"2025-05-" ++ (if i + 1 < 10 then "0" ++ toString (i + 1) else toString (i + 1)),
      10, "Test", "Test expense"⟩)) 0

/-- The full store after a call of `addExpenses` in which `new` threw inside `resize`: the
ten records in their array of ten slots, with `capacity` already doubled to 20. -/
def failedResizeStore : Tracker :=
  { expenses := fullStore.expenses, capacity := 20, size := 10 }

/-- The date built by `test_memory_management` for the day `i`. -/
def memoryTestDate (i : Nat) : String :=
  "2025-05-" ++ (if i < 10 then "0" ++ toString i else toString i)

/-- The fifteen records that `test_memory_management` adds, for `i = 1 .. 15`. -/
def memoryTestExpenses : List Expense :=
  (List.range 15).map (fun i => ⟨memoryTestDate (i + 1), 10, "Test", "Test expense"⟩)

/-- The category names `a`, `aa`, `aaa`, ...: `n` distinct categories. -/
def manyCategories (n : Nat) : List String :=
  (List.range n).map (fun i => String.mk (List.replicate (i + 1) 'a'))

/-- A store holding 51 valid records of amount 1 with 51 distinct categories, in the array of
80 slots that 51 insertions leave. -/
def manyCategoriesStore : Tracker :=
  ofList ((manyCategories 51).map (fun c => ⟨"2025-05-01", 1, c, "x"⟩)) 29

end ExpenseApp

/-! ## The array and the stored sequence -/

namespace ExpenseApp

theorem empty_iff (s : String) : empty s = true ↔ s = "" := by
  cases s with
  | mk cs =>
    cases cs with
    | nil => simp [empty, String.length]
    | cons c cs =>
      simp only [empty, String.length, List.length_cons, beq_iff_eq, Nat.succ_ne_zero,
        false_iff]
      intro h
      have := congrArg String.data h
      simp at this

theorem empty_eq_false_iff (s : String) : empty s = false ↔ s ≠ "" := by
  rw [Ne, ← empty_iff]; simp

theorem map_some_reduceOption (xs : List (Option Expense))
    (h : ∀ x ∈ xs, ∃ e, x = some e) : xs = xs.reduceOption.map some := by
  induction xs with
  | nil => rfl
  | cons x xs ih =>
    obtain ⟨e, rfl⟩ := h x (List.mem_cons_self _ _)
    rw [List.reduceOption_cons_of_some, List.map_cons, ← ih]
    intro y hy
    exact h y (List.mem_cons_of_mem _ hy)

theorem WF.take_eq {t : Tracker} (h : WF t) :
    t.expenses.take t.size = (records t).map some := by
  apply map_some_reduceOption
  intro x hx
  obtain ⟨i, hi, rfl⟩ := List.getElem_of_mem hx
  have hlt : i < t.size := by
    have := hi
    simp only [List.length_take] at this
    omega
  obtain ⟨e, he⟩ := h.2.2.2 i hlt
  refine ⟨e, ?_⟩
  have h1 : (t.expenses.take t.size)[i]? = some (some e) := by
    rw [List.getElem?_take, if_pos hlt, he]
  rw [List.getElem?_eq_getElem hi] at h1
  exact Option.some.inj h1

theorem WF.records_length {t : Tracker} (h : WF t) : (records t).length = t.size := by
  have := congrArg List.length h.take_eq
  simp only [List.length_take, List.length_map] at this
  have h1 := h.1
  have h2 := h.2.2.1
  omega

theorem WF.expenses_eq {t : Tracker} (h : WF t) :
    t.expenses = (records t).map some ++ t.expenses.drop t.size := by
  rw [← h.take_eq, List.take_append_drop]

theorem WF.deref_eq {t : Tracker} (h : WF t) (i : Nat) (hi : i < t.size) :
    deref t.expenses i = (records t)[i]? := by
  have h1 : (t.expenses.take t.size)[i]? = t.expenses[i]? := by
    rw [List.getElem?_take, if_pos hi]
  rw [h.take_eq, List.getElem?_map] at h1
  have hl : i < (records t).length := by rw [h.records_length]; exact hi
  rw [List.getElem?_eq_getElem hl] at h1 ⊢
  simp only [Option.map_some'] at h1
  simp only [deref, ← h1]

theorem foldlM_range_eq {σ : Type} (arr : List (Option Expense)) (body : σ → Expense → Option σ)
    (l : List Expense) (init : σ)
    (h : ∀ i, i < l.length → deref arr i = l[i]?) :
    (List.range l.length).foldlM (fun s i => (deref arr i).bind (body s)) init
      = l.foldlM body init := by
  induction l using List.reverseRecOn with
  | nil => rfl
  | append_singleton l a ih =>
    have hl : (l ++ [a]).length = l.length + 1 := by simp
    rw [hl, List.range_succ, List.foldlM_append, List.foldlM_append, ih]
    · cases hr : l.foldlM body init with
      | none => rfl
      | some s =>
        have := h l.length (by omega)
        simp only [List.getElem?_append_right (le_refl _), Nat.sub_self,
          List.getElem?_cons_zero] at this
        simp [this]
    · intro i hi
      rw [h i (by omega), List.getElem?_append_left hi]

/-- On a well-formed state the counted loop over the slots is the fold over the stored
sequence. -/
theorem WF.forEach_eq {σ : Type} {t : Tracker} (h : WF t) (body : σ → Expense → Option σ)
    (init : σ) : forEach t body init = (records t).foldlM body init := by
  have := foldlM_range_eq t.expenses body (records t) init
    (fun i hi => h.deref_eq i (by rw [← h.records_length]; exact hi))
  rw [h.records_length] at this
  exact this

theorem records_ofList (l : List Expense) (spare : Nat) : records (ofList l spare) = l := by
  simp only [records, ofList]
  rw [List.take_left' (by simp)]
  induction l with
  | nil => rfl
  | cons a l ih => rw [List.map_cons, List.reduceOption_cons_of_some, ih]

theorem WF_ofList (l : List Expense) (spare : Nat) (h : 0 < l.length + spare) :
    WF (ofList l spare) := by
  refine ⟨by simp [ofList], h, by simp [ofList], ?_⟩
  intro i hi
  simp only [ofList] at hi ⊢
  refine ⟨l[i], ?_⟩
  rw [List.getElem?_append_left (by simpa using hi)]
  simp [List.getElem?_eq_getElem hi]

theorem WF_ctor : WF Tracker.ctor := by
  refine ⟨by simp [Tracker.ctor], by simp [Tracker.ctor, INITIAL_CAPACITY], by simp [Tracker.ctor], ?_⟩
  intro i hi
  simp [Tracker.ctor] at hi

theorem records_ctor : records Tracker.ctor = [] := by
  simp [records, Tracker.ctor]

end ExpenseApp

/-! ## Growth and insertion -/

namespace ExpenseApp

theorem copyLoop_eq (src dst : List (Option Expense)) (n : Nat)
    (hs : n ≤ src.length) (hd : n ≤ dst.length) :
    copyLoop src n dst = some (src.take n ++ dst.drop n) := by
  induction n with
  | zero => simp [copyLoop]
  | succ n ih =>
    have ih1 := ih (by omega) (by omega)
    simp only [copyLoop] at ih1 ⊢
    rw [List.range_succ, List.foldlM_append, ih1]
    have hn : n < src.length := by omega
    have hlen : n < (List.take n src ++ List.drop n dst).length := by
      simp only [List.length_append, List.length_take, List.length_drop]
      omega
    simp only [Option.bind_eq_bind, Option.some_bind, List.foldlM_cons, List.foldlM_nil,
      List.getElem?_eq_getElem hn, writeAt, if_pos hlen, Option.bind_some, pure]
    congr 1
    apply List.ext_getElem?
    intro i
    simp only [List.getElem?_set, List.getElem?_append, List.getElem?_take, List.getElem?_drop,
      List.length_take, List.length_append, List.length_drop]
    have e1 : min n src.length = n := by omega
    have e2 : min (n + 1) src.length = n + 1 := by omega
    rw [e1, e2]
    by_cases h1 : n = i
    · subst h1
      have : n < n + (dst.length - n) := by omega
      simp [hn, this]
    · by_cases h2 : i < n
      · have : i < n + 1 := by omega
        simp [h1, h2, this]
      · have h3 : ¬ i < n + 1 := by omega
        simp only [h1, h2, h3, if_false]
        congr 1
        omega

theorem WF.resize_eq {t : Tracker} (h : WF t) :
    resize t = some (ofList (records t) (t.capacity * 2 - t.size)) := by
  have hs : t.size ≤ t.expenses.length := by rw [h.1]; exact h.2.2.1
  have hc := h.2.2.1
  simp only [resize]
  rw [copyLoop_eq _ _ _ hs (by simp; omega)]
  simp only [Option.map_some', ofList, h.take_eq, List.drop_replicate, h.records_length]
  congr 2
  omega

theorem WF.growIfFull_eq {t : Tracker} (h : WF t) :
    ∃ t1, growIfFull t = some t1 ∧ WF t1 ∧ records t1 = records t ∧ t1.size = t.size ∧
      t1.size < t1.capacity ∧
      ((t.size < t.capacity ∧ t1 = t) ∨ (t.size = t.capacity ∧ t1.capacity = t.capacity * 2)) := by
  have hc := h.2.2.1
  have hp := h.2.1
  by_cases hfull : t.size ≥ t.capacity
  · refine ⟨ofList (records t) (t.capacity * 2 - t.size), ?_, ?_, records_ofList _ _, ?_, ?_, ?_⟩
    · simp only [growIfFull, if_pos hfull, h.resize_eq]
    · apply WF_ofList
      rw [h.records_length]; omega
    · simp [ofList, h.records_length]
    · simp only [ofList, h.records_length]; omega
    · right
      refine ⟨by omega, ?_⟩
      simp only [ofList, h.records_length]; omega
  · refine ⟨t, ?_, h, rfl, rfl, by omega, Or.inl ⟨by omega, rfl⟩⟩
    simp only [growIfFull, if_neg hfull]

theorem WF.push_eq {t : Tracker} (h : WF t) (hlt : t.size < t.capacity) (e : Expense) :
    ∃ t1, push t e = some t1 ∧ WF t1 ∧ records t1 = records t ++ [e] ∧ t1.size = t.size + 1 ∧
      t1.capacity = t.capacity := by
  have hlen : t.size < t.expenses.length := by rw [h.1]; exact hlt
  refine ⟨⟨t.expenses.set t.size (some e), t.capacity, t.size + 1⟩, ?_, ?_, ?_, rfl, rfl⟩
  · simp only [push, writeAt, if_pos hlen, Option.map_some']
  · refine ⟨by simp [h.1], h.2.1, by simp only; omega, ?_⟩
    intro i hi
    simp only at hi ⊢
    by_cases hi2 : t.size = i
    · refine ⟨e, ?_⟩
      rw [List.getElem?_set, if_pos hi2, if_pos hlen]
    · obtain ⟨e1, he1⟩ := h.2.2.2 i (by omega)
      exact ⟨e1, by rw [List.getElem?_set, if_neg hi2, he1]⟩
  · simp only [records]
    rw [List.take_succ, List.getElem?_set, if_pos rfl, if_pos hlen, List.reduceOption_append]
    congr 1
    have : List.take t.size (t.expenses.set t.size (some e)) = List.take t.size t.expenses := by
      apply List.ext_getElem?
      intro i
      simp only [List.getElem?_take, List.getElem?_set]
      by_cases hi : i < t.size
      · have : ¬ t.size = i := by omega
        simp [hi, this]
      · simp [hi]
    rw [this]

end ExpenseApp

/-! ## Insertion: claims C1 to C4 -/

namespace ExpenseApp

/-- C1. On every state of `TestableExpenseTracker`, full ones included, `addExpense` with a
format-valid date, a positive amount, a non-empty category and a non-empty description returns
`true`; the stored sequence afterwards is the previous one followed by the new record, and the
size has grown by exactly one. -/
theorem C1_addExpense_valid_appends (t : Tracker) (date : String) (amount : ℚ)
    (category description : String) (hwf : WF t) (hdate : isValidDate date = true)
    (hamount : 0 < amount) (hcat : category ≠ "") (hdesc : description ≠ "") :
    ∃ t1, TestableExpenseTracker.addExpense t date amount category description = some (t1, true) ∧
      WF t1 ∧
      records t1 = records t ++ [⟨date, amount, category, description⟩] ∧
      TestableExpenseTracker.getSize t1 = TestableExpenseTracker.getSize t + 1 := by
  obtain ⟨t1, hg, hwf1, hrec1, hsize1, hlt1, _⟩ := hwf.growIfFull_eq
  obtain ⟨t2, hp, hwf2, hrec2, hsize2, _⟩ :=
    hwf1.push_eq hlt1 ⟨date, amount, category, description⟩
  refine ⟨t2, ?_, hwf2, by rw [hrec2, hrec1], ?_⟩
  · have hc := (empty_eq_false_iff category).2 hcat
    have hd := (empty_eq_false_iff description).2 hdesc
    have ha : ¬ amount ≤ 0 := not_le.2 hamount
    simp [TestableExpenseTracker.addExpense, hdate, hc, hd, ha, hg, hp]
  · simp only [TestableExpenseTracker.getSize, hsize2, hsize1]

/-- C1 at the full store of ten slots (`size = capacity = 10`): the call grows the array and
appends. -/
theorem C1_addExpense_valid_appends_witness :
    WF fullStore ∧ fullStore.size = fullStore.capacity ∧
    ∃ t1, TestableExpenseTracker.addExpense fullStore "2025-05-01" 10 "A" "B"
        = some (t1, true) ∧
      WF t1 ∧
      records t1 = records fullStore ++ [⟨"2025-05-01", 10, "A", "B"⟩] ∧
      TestableExpenseTracker.getSize t1 = TestableExpenseTracker.getSize fullStore + 1 :=
  ⟨WF_ofList _ _ (by decide), rfl,
    C1_addExpense_valid_appends fullStore "2025-05-01" 10 "A" "B" (WF_ofList _ _ (by decide))
      (by decide) (by norm_num) (by decide) (by decide)⟩

/-- C2. On every state of `TestableExpenseTracker`, `addExpense` with a date that `isValidDate`
rejects, or an amount `<= 0`, or an empty category, or an empty description returns `false`
and leaves the whole state (array, size, capacity) as it was. -/
theorem C2_addExpense_invalid_rejected (t : Tracker) (date : String) (amount : ℚ)
    (category description : String)
    (h : isValidDate date = false ∨ amount ≤ 0 ∨ category = "" ∨ description = "") :
    TestableExpenseTracker.addExpense t date amount category description = some (t, false) := by
  have hcond : (!isValidDate date || decide (amount ≤ 0) || empty category
      || empty description) = true := by
    rcases h with h | h | h | h
    · simp [h]
    · simp [h]
    · simp [(empty_iff category).2 h]
    · simp [(empty_iff description).2 h]
  simp only [TestableExpenseTracker.addExpense, hcond, if_true]

/-- C2 on the four rejected calls of `test_invalid_inputs`, and on a zero amount. -/
theorem C2_addExpense_invalid_rejected_witness :
    TestableExpenseTracker.addExpense Tracker.ctor "invalid-date" 10 "Test" "Test"
        = some (Tracker.ctor, false) ∧
    TestableExpenseTracker.addExpense Tracker.ctor "2025-05-01" (-5) "Test" "Test"
        = some (Tracker.ctor, false) ∧
    TestableExpenseTracker.addExpense Tracker.ctor "2025-05-01" 0 "Test" "Test"
        = some (Tracker.ctor, false) ∧
    TestableExpenseTracker.addExpense Tracker.ctor "2025-05-01" 10 "" "Test"
        = some (Tracker.ctor, false) ∧
    TestableExpenseTracker.addExpense Tracker.ctor "2025-05-01" 10 "Test" ""
        = some (Tracker.ctor, false) :=
  ⟨C2_addExpense_invalid_rejected _ _ _ _ _ (Or.inl (by decide)),
   C2_addExpense_invalid_rejected _ _ _ _ _ (Or.inr (Or.inl (by norm_num))),
   C2_addExpense_invalid_rejected _ _ _ _ _ (Or.inr (Or.inl (le_refl 0))),
   C2_addExpense_invalid_rejected _ _ _ _ _ (Or.inr (Or.inr (Or.inl rfl))),
   C2_addExpense_invalid_rejected _ _ _ _ _ (Or.inr (Or.inr (Or.inr rfl)))⟩

/-- C3. On every state of the production `ExpenseTracker`, full ones included, `addExpenses`
with an empty category or an empty description ends with one of the two error messages (no
undefined step, no record added): the size and the stored records, in order, are the same after
the call as before.  On a full store the array has been reallocated with the doubled capacity
before the check, which the stored sequence does not show. -/
theorem C3_addExpenses_empty_field_rejected (t : Tracker) (date : String) (amount : ℚ)
    (category description : String) (hwf : WF t) (h : category = "" ∨ description = "") :
    ∃ t1 msg, ExpenseTracker.addExpenses t date amount category description = some (t1, msg) ∧
      msg ≠ AddMessage.added ∧ WF t1 ∧ t1.size = t.size ∧ records t1 = records t ∧
      ((t.size < t.capacity ∧ t1 = t) ∨
        (t.size = t.capacity ∧ t1.capacity = t.capacity * 2)) := by
  obtain ⟨t1, hg, hwf1, hrec1, hsize1, _, hcap⟩ := hwf.growIfFull_eq
  by_cases hc : category = ""
  · refine ⟨t1, AddMessage.categoryEmpty, ?_, by decide, hwf1, hsize1, hrec1, hcap⟩
    simp [ExpenseTracker.addExpenses, hg, (empty_iff category).2 hc]
  · have hd : description = "" := h.resolve_left hc
    refine ⟨t1, AddMessage.descriptionEmpty, ?_, by decide, hwf1, hsize1, hrec1, hcap⟩
    simp [ExpenseTracker.addExpenses, hg, (empty_eq_false_iff category).2 hc,
      (empty_iff description).2 hd]

/-- C3 on the full store of ten slots, with an empty description. -/
theorem C3_addExpenses_empty_field_rejected_witness :
    WF fullStore ∧
    ∃ t1 msg, ExpenseTracker.addExpenses fullStore "2025-05-02" 50 "Transport" ""
        = some (t1, msg) ∧
      msg ≠ AddMessage.added ∧ WF t1 ∧ t1.size = fullStore.size ∧
      records t1 = records fullStore ∧
      ((fullStore.size < fullStore.capacity ∧ t1 = fullStore) ∨
        (fullStore.size = fullStore.capacity ∧ t1.capacity = fullStore.capacity * 2)) :=
  ⟨WF_ofList _ _ (by decide),
    C3_addExpenses_empty_field_rejected fullStore "2025-05-02" 50 "Transport" ""
      (WF_ofList _ _ (by decide)) (Or.inr rfl)⟩

/-- C4, the claim as stated fails: on the freshly constructed production tracker,
`addExpenses` with the date `"invalid"` (rejected by `isValidDate`) and the amount `-5` adds
the record, and the size goes from 0 to 1. -/
theorem C4_addExpenses_accepts_invalid_date_and_amount :
    isValidDate "invalid" = false ∧ ((-5 : ℚ) ≤ 0) ∧ Tracker.ctor.size = 0 ∧
    ∃ t1, ExpenseTracker.addExpenses Tracker.ctor "invalid" (-5) "Food" "Lunch"
        = some (t1, AddMessage.added) ∧
      t1.size = 1 ∧ records t1 = [⟨"invalid", -5, "Food", "Lunch"⟩] :=
  ⟨by decide, by norm_num, rfl, _, rfl, rfl, by decide!⟩

/-- C4 as amended. `addExpenses` checks neither the date nor the amount: on every state of the
production `ExpenseTracker` and for every date and amount (also a date that `isValidDate`
rejects and an amount `<= 0`), a call with a non-empty category and a non-empty description
appends the record and the size grows by one. -/
theorem C4_addExpenses_appends_whatever_date_amount (t : Tracker) (date : String) (amount : ℚ)
    (category description : String) (hwf : WF t) (hcat : category ≠ "")
    (hdesc : description ≠ "") :
    ∃ t1, ExpenseTracker.addExpenses t date amount category description
        = some (t1, AddMessage.added) ∧
      WF t1 ∧ t1.size = t.size + 1 ∧
      records t1 = records t ++ [⟨date, amount, category, description⟩] := by
  obtain ⟨t1, hg, hwf1, hrec1, hsize1, hlt1, _⟩ := hwf.growIfFull_eq
  obtain ⟨t2, hp, hwf2, hrec2, hsize2, _⟩ :=
    hwf1.push_eq hlt1 ⟨date, amount, category, description⟩
  refine ⟨t2, ?_, hwf2, by rw [hsize2, hsize1], by rw [hrec2, hrec1]⟩
  simp [ExpenseTracker.addExpenses, hg, hp, (empty_eq_false_iff category).2 hcat,
    (empty_eq_false_iff description).2 hdesc]

/-- C4 as amended, at a date that `isValidDate` rejects and a negative amount. -/
theorem C4_addExpenses_appends_whatever_date_amount_witness :
    isValidDate "2025/05/01" = false ∧ ((-5 : ℚ) ≤ 0) ∧ WF Tracker.ctor ∧
    ∃ t1, ExpenseTracker.addExpenses Tracker.ctor "2025/05/01" (-5) "Food" "Lunch"
        = some (t1, AddMessage.added) ∧
      WF t1 ∧ t1.size = Tracker.ctor.size + 1 ∧
      records t1 = records Tracker.ctor ++ [⟨"2025/05/01", -5, "Food", "Lunch"⟩] :=
  ⟨by decide, by norm_num, WF_ctor,
    C4_addExpenses_appends_whatever_date_amount Tracker.ctor "2025/05/01" (-5) "Food" "Lunch"
      WF_ctor (by decide) (by decide)⟩

end ExpenseApp

/-! ## Date format: claim C5 -/

namespace ExpenseApp

theorem charAt_eq_iff (s : String) (i : Nat) (c : Char) (h : i < s.length) :
    charAt s i = c ↔ s.data[i]? = some c := by
  have h1 : i < s.data.length := h
  simp [charAt, List.getD_eq_getElem?_getD, List.getElem?_eq_getElem h1]

/-- C5. A string is accepted by `isValidDate` exactly when it has 10 characters, the characters
at indices 4 and 7 are `-` and each of the other eight is one of `0` .. `9`; there is no
calendar check (`2025-13-99` is accepted), and `2025/05/01`, `2025-5-1`, `invalid` and the
empty string are rejected. -/
theorem C5_isValidDate_iff_format :
    (∀ s : String, isValidDate s = true ↔
      s.length = 10 ∧ s.data[4]? = some '-' ∧ s.data[7]? = some '-' ∧
        ∀ i, i < 10 → i ≠ 4 → i ≠ 7 → ∃ c, s.data[i]? = some c ∧ '0' ≤ c ∧ c ≤ '9') ∧
    isValidDate "2025-13-99" = true ∧ isValidDate "2025/05/01" = false ∧
    isValidDate "2025-5-1" = false ∧ isValidDate "invalid" = false ∧
    isValidDate "" = false := by
  refine ⟨?_, by decide, by decide, by decide, by decide, by decide⟩
  intro s
  by_cases hlen : s.length = 10
  · have h4 : 4 < s.length := by omega
    have h7 : 7 < s.length := by omega
    simp only [isValidDate, hlen, bne_self_eq_false, Bool.false_eq_true, if_false,
      Bool.or_eq_true, bne_iff_ne, ne_eq, true_and]
    rw [← charAt_eq_iff s 4 '-' h4, ← charAt_eq_iff s 7 '-' h7]
    by_cases hd : charAt s 4 = '-' ∧ charAt s 7 = '-'
    · simp only [hd.1, hd.2, not_true_eq_false, or_self, if_false, true_and]
      simp only [List.all_eq_true, List.mem_range, Bool.or_eq_true, beq_iff_eq]
      constructor
      · intro h i hi hi4 hi7
        have := h i hi
        simp only [hi4, hi7, false_or, isdigit, decide_eq_true_eq] at this
        refine ⟨charAt s i, ?_, this⟩
        exact (charAt_eq_iff s i _ (by omega)).1 rfl
      · intro h i hi
        by_cases hi4 : i = 4
        · exact Or.inl (Or.inl hi4)
        by_cases hi7 : i = 7
        · exact Or.inl (Or.inr hi7)
        obtain ⟨c, hc, hc2⟩ := h i hi hi4 hi7
        right
        have : charAt s i = c := (charAt_eq_iff s i c (by omega)).2 hc
        simp only [isdigit, this, decide_eq_true_eq]
        exact hc2
    · have hd' : (¬ charAt s 4 = '-' ∨ ¬ charAt s 7 = '-') := by tauto
      simp only [hd', if_true, Bool.false_eq_true, false_iff]
      tauto
  · have : (s.length != 10) = true := by simpa using hlen
    simp only [isValidDate, this, if_true, Bool.false_eq_true, false_iff]
    tauto

end ExpenseApp

/-! ## Filters: claims C6 and C7 -/

namespace ExpenseApp

theorem selectFold_eq (test : Expense → Bool) (l : List Expense)
    (init : ExpenseTracker.FilterReport) :
    l.foldlM (fun r e => some (if test e then
        (⟨r.lines ++ [e], true⟩ : ExpenseTracker.FilterReport) else r)) init
      = some ⟨init.lines ++ l.filter test, init.found || l.any test⟩ := by
  induction l generalizing init with
  | nil => simp
  | cons a l ih =>
    rw [List.foldlM_cons]
    simp only [Option.bind_eq_bind, Option.some_bind]
    rw [ih]
    by_cases ha : test a = true
    · simp [ha]
    · simp [ha]

theorem WF.selectLoop_eq {t : Tracker} (h : WF t) (test : Expense → Bool) :
    ExpenseTracker.selectLoop t test
      = some ⟨(records t).filter test, (records t).any test⟩ := by
  simp only [ExpenseTracker.selectLoop]
  rw [h.forEach_eq, selectFold_eq]
  simp

theorem countFold_eq (test : Expense → Prop) [DecidablePred test] (l : List Expense)
    (init : Nat) :
    l.foldlM (fun count e => some (if test e then count + 1 else count)) init
      = some (init + (l.filter (fun e => decide (test e))).length) := by
  induction l generalizing init with
  | nil => simp
  | cons a l ih =>
    rw [List.foldlM_cons]
    simp only [Option.bind_eq_bind, Option.some_bind]
    rw [ih]
    by_cases ha : test a
    · simp [ha]; omega
    · simp [ha]

theorem WF.filterByDateRange_eq {t : Tracker} (h : WF t) (startDate endDate : String) :
    ExpenseTracker.filterByDateRange t startDate endDate
      = some ⟨(records t).filter (fun e =>
            decide (min startDate endDate ≤ e.date ∧ e.date ≤ max startDate endDate)),
          (records t).any (fun e =>
            decide (min startDate endDate ≤ e.date ∧ e.date ≤ max startDate endDate))⟩ := by
  simp only [ExpenseTracker.filterByDateRange]
  rw [h.selectLoop_eq]
  by_cases hgt : startDate > endDate
  · have hle : endDate ≤ startDate := le_of_lt hgt
    simp only [if_pos hgt, min_eq_right hle, max_eq_left hle, ge_iff_le, Bool.decide_and]
  · have hle : startDate ≤ endDate := not_lt.1 hgt
    simp only [if_neg hgt, min_eq_left hle, max_eq_right hle, ge_iff_le, Bool.decide_and]

/-- C6. For every store and every two date strings, in either order, the date-range filter
prints exactly the stored records whose date `d` satisfies
`min start end <= d <= max start end` in the order on strings, both bounds included, in
insertion order; the two orders of the bounds give the same output, and nothing is printed
(and `found` stays `false`) exactly when no stored record lies in the range. -/
theorem C6_filterByDateRange_selects_range (t : Tracker) (startDate endDate : String)
    (hwf : WF t) :
    ∃ r, ExpenseTracker.filterByDateRange t startDate endDate = some r ∧
      r.lines = (records t).filter (fun e =>
        decide (min startDate endDate ≤ e.date ∧ e.date ≤ max startDate endDate)) ∧
      ExpenseTracker.filterByDateRange t endDate startDate = some r ∧
      (r.lines = [] ↔ ∀ e ∈ records t,
        ¬ (min startDate endDate ≤ e.date ∧ e.date ≤ max startDate endDate)) ∧
      (r.found = false ↔ r.lines = []) := by
  refine ⟨_, hwf.filterByDateRange_eq startDate endDate, rfl, ?_, ?_, ?_⟩
  · rw [hwf.filterByDateRange_eq endDate startDate, min_comm, max_comm]
  · simp only [List.filter_eq_nil_iff, decide_eq_true_eq]
  · simp only [List.filter_eq_nil_iff, List.any_eq_false]

/-- C6 on the store of `test_filtering` with the bounds given in reverse order: the records
of 2 May and 3 May are printed. -/
theorem C6_filterByDateRange_selects_range_witness :
    WF filteringStore ∧
    (records filteringStore).filter (fun e =>
      decide (min "2025-05-04" "2025-05-02" ≤ e.date ∧ e.date ≤ max "2025-05-04" "2025-05-02"))
      = [⟨"2025-05-02", 50, "Transport", "Gas"⟩, ⟨"2025-05-03", 51 / 2, "Food", "Dinner"⟩] ∧
    ∃ r, ExpenseTracker.filterByDateRange filteringStore "2025-05-04" "2025-05-02" = some r ∧
      r.lines = (records filteringStore).filter (fun e =>
        decide (min "2025-05-04" "2025-05-02" ≤ e.date ∧
          e.date ≤ max "2025-05-04" "2025-05-02")) ∧
      ExpenseTracker.filterByDateRange filteringStore "2025-05-02" "2025-05-04" = some r ∧
      (r.lines = [] ↔ ∀ e ∈ records filteringStore,
        ¬ (min "2025-05-04" "2025-05-02" ≤ e.date ∧ e.date ≤ max "2025-05-04" "2025-05-02")) ∧
      (r.found = false ↔ r.lines = []) :=
  ⟨WF_ofList _ _ (by decide), by decide!,
    C6_filterByDateRange_selects_range filteringStore "2025-05-04" "2025-05-02"
      (WF_ofList _ _ (by decide))⟩

/-- C7. For every store and every non-empty category string `c`, the category filter prints
exactly the stored records whose category equals `c` as a string (so case matters), in
insertion order; `countByCategory` of the test harness counts the same records; nothing is
printed (and `found` stays `false`) exactly when no stored record has category `c`. -/
theorem C7_filterByCategory_exact_match (t : Tracker) (c : String) (hwf : WF t)
    (hc : c ≠ "") :
    ∃ r, ExpenseTracker.filterByCategory t c = some (ExpenseTracker.CategoryOutput.report r) ∧
      r.lines = (records t).filter (fun e => decide (e.category = c)) ∧
      TestableExpenseTracker.countByCategory t c = some r.lines.length ∧
      (r.lines = [] ↔ ∀ e ∈ records t, e.category ≠ c) ∧
      (r.found = false ↔ r.lines = []) := by
  refine ⟨⟨(records t).filter (fun e => decide (e.category = c)),
    (records t).any (fun e => decide (e.category = c))⟩, ?_, rfl, ?_, ?_, ?_⟩
  · simp only [ExpenseTracker.filterByCategory, (empty_eq_false_iff c).2 hc,
      Bool.false_eq_true, if_false, hwf.selectLoop_eq, Option.map_some']
  · simp only [TestableExpenseTracker.countByCategory]
    rw [hwf.forEach_eq, countFold_eq (fun e => e.category = c)]
    simp
  · simp only [List.filter_eq_nil_iff, decide_eq_true_eq, ne_eq]
  · simp only [List.filter_eq_nil_iff, List.any_eq_false]

/-- C7 on the store of `test_filtering`, asked for `food`: nothing is printed and the count is
0, since `food` is not `Food`. -/
theorem C7_filterByCategory_exact_match_witness :
    WF filteringStore ∧
    (records filteringStore).filter (fun e => decide (e.category = "food")) = [] ∧
    ∃ r, ExpenseTracker.filterByCategory filteringStore "food"
        = some (ExpenseTracker.CategoryOutput.report r) ∧
      r.lines = (records filteringStore).filter (fun e => decide (e.category = "food")) ∧
      TestableExpenseTracker.countByCategory filteringStore "food" = some r.lines.length ∧
      (r.lines = [] ↔ ∀ e ∈ records filteringStore, e.category ≠ "food") ∧
      (r.found = false ↔ r.lines = []) :=
  ⟨WF_ofList _ _ (by decide), by decide,
    C7_filterByCategory_exact_match filteringStore "food" (WF_ofList _ _ (by decide))
      (by decide)⟩

end ExpenseApp

/-! ## First-seen order and per-category totals -/

namespace ExpenseApp

theorem firstSeen_nil : firstSeen [] = [] := rfl

theorem firstSeen_concat (cs : List String) (c : String) :
    firstSeen (cs ++ [c]) = if c ∈ firstSeen cs then firstSeen cs else firstSeen cs ++ [c] := by
  simp only [firstSeen, List.foldl_append, List.foldl_cons, List.foldl_nil]

theorem mem_firstSeen (cs : List String) (x : String) : x ∈ firstSeen cs ↔ x ∈ cs := by
  induction cs using List.reverseRecOn with
  | nil => simp [firstSeen_nil]
  | append_singleton cs c ih =>
    rw [firstSeen_concat]
    by_cases hc : c ∈ firstSeen cs
    · rw [if_pos hc, ih, List.mem_append, List.mem_singleton]
      constructor
      · exact Or.inl
      · rintro (h | h)
        · exact h
        · subst h; exact ih.1 hc
    · rw [if_neg hc, List.mem_append, List.mem_append, ih]

theorem nodup_firstSeen (cs : List String) : (firstSeen cs).Nodup := by
  induction cs using List.reverseRecOn with
  | nil => simp [firstSeen_nil]
  | append_singleton cs c ih =>
    rw [firstSeen_concat]
    by_cases hc : c ∈ firstSeen cs
    · rw [if_pos hc]; exact ih
    · rw [if_neg hc, List.nodup_append]
      refine ⟨ih, List.nodup_singleton c, ?_⟩
      intro x hx hx2
      rw [List.mem_singleton] at hx2
      exact hc (hx2 ▸ hx)

theorem length_firstSeen (cs : List String) : (firstSeen cs).length = cs.dedup.length := by
  apply List.Perm.length_eq
  rw [List.perm_ext_iff_of_nodup (nodup_firstSeen cs) (List.nodup_dedup cs)]
  intro a
  rw [mem_firstSeen, List.mem_dedup]

/-- In `firstSeen cs` the elements stand in the order of their first occurrence in `cs`. -/
theorem pairwise_firstSeen (cs : List String) :
    (firstSeen cs).Pairwise (fun a b => cs.indexOf a < cs.indexOf b) := by
  induction cs using List.reverseRecOn with
  | nil => simp [firstSeen_nil]
  | append_singleton cs c ih =>
    have hstep : (firstSeen cs).Pairwise
        (fun a b => (cs ++ [c]).indexOf a < (cs ++ [c]).indexOf b) := by
      have hmem : ∀ x ∈ firstSeen cs, x ∈ cs := fun x hx => (mem_firstSeen cs x).1 hx
      refine (List.Pairwise.and_mem.1 ih).imp ?_
      intro a b hab
      obtain ⟨ha, hb, hlt⟩ := hab
      rw [List.indexOf_append_of_mem (hmem a ha), List.indexOf_append_of_mem (hmem b hb)]
      exact hlt
    rw [firstSeen_concat]
    by_cases hc : c ∈ firstSeen cs
    · rw [if_pos hc]; exact hstep
    · rw [if_neg hc, List.pairwise_append]
      refine ⟨hstep, List.pairwise_singleton _ _, ?_⟩
      intro a ha b hb
      rw [List.mem_singleton] at hb
      subst hb
      have ha' : a ∈ cs := (mem_firstSeen cs a).1 ha
      have hb' : b ∉ cs := fun h => hc ((mem_firstSeen cs b).2 h)
      rw [List.indexOf_append_of_mem ha', List.indexOf_append_of_not_mem hb']
      have := List.indexOf_lt_length.2 ha'
      omega

theorem amountSum_append (l₁ l₂ : List Expense) :
    amountSum (l₁ ++ l₂) = amountSum l₁ + amountSum l₂ := by
  simp [amountSum]

theorem categoryTotal_concat (l : List Expense) (e : Expense) (x : String) :
    categoryTotal (l ++ [e]) x
      = categoryTotal l x + (if e.category = x then e.amount else 0) := by
  simp only [categoryTotal, List.filter_append, amountSum_append]
  by_cases h : e.category = x
  · simp [h, amountSum]
  · simp [h, amountSum]

theorem categoryTotal_eq_zero (l : List Expense) (x : String) (h : x ∉ categoriesOf l) :
    categoryTotal l x = 0 := by
  have : l.filter (fun e => decide (e.category = x)) = [] := by
    rw [List.filter_eq_nil_iff]
    intro e he hx
    apply h
    simp only [categoriesOf, List.mem_map]
    exact ⟨e, he, by simpa using hx⟩
  simp [categoryTotal, this, amountSum]

/-- Over a duplicate-free list of categories that covers every record, the per-category totals
add up to the sum of all amounts. -/
theorem sum_categoryTotal (l : List Expense) (K : List String) (hK : K.Nodup)
    (hcover : ∀ e ∈ l, e.category ∈ K) :
    (K.map (categoryTotal l)).sum = amountSum l := by
  induction l using List.reverseRecOn with
  | nil =>
    have h0 : categoryTotal [] = fun _ => (0 : ℚ) := by
      funext x; simp [categoryTotal, amountSum]
    simp [h0, amountSum]
  | append_singleton l e ih =>
    have ih1 := ih (fun e1 he1 => hcover e1 (List.mem_append_left _ he1))
    have he : e.category ∈ K := hcover e (by simp)
    have hfun : categoryTotal (l ++ [e])
        = fun x => categoryTotal l x + (if e.category = x then e.amount else 0) := by
      funext x; exact categoryTotal_concat l e x
    rw [hfun, List.sum_map_add, ih1, amountSum_append]
    congr 1
    rw [← List.sum_toFinset _ hK, Finset.sum_ite_eq]
    simp [he, amountSum]

end ExpenseApp

/-! ## The loop of `getSummary` -/

namespace ExpenseApp

theorem scanCategories_not_found (e : Expense) (cats : List String) (totals : List ℚ)
    (fuel j : Nat) (hlen : j + fuel ≤ cats.length)
    (h : ∀ i, j ≤ i → i < j + fuel → cats[i]? ≠ some e.category) :
    ExpenseTracker.scanCategories e cats totals fuel j = some (totals, false) := by
  induction fuel generalizing j with
  | zero => rfl
  | succ fuel ih =>
    have hj : j < cats.length := by omega
    have hne : ¬ e.category = cats[j] := by
      intro heq
      apply h j (le_refl _) (by omega)
      rw [List.getElem?_eq_getElem hj, heq]
    rw [ExpenseTracker.scanCategories, List.getElem?_eq_getElem hj]
    simp only [Option.some_bind, if_neg hne]
    exact ih (j + 1) (by omega) (fun i hi1 hi2 => h i (by omega) (by omega))

theorem scanCategories_found (e : Expense) (cats : List String) (totals : List ℚ)
    (fuel j k : Nat) (hlenC : j + fuel ≤ cats.length) (hlenT : j + fuel ≤ totals.length)
    (hjk : j ≤ k) (hk : k < j + fuel) (hck : cats[k]? = some e.category)
    (hbefore : ∀ i, j ≤ i → i < k → cats[i]? ≠ some e.category) :
    ExpenseTracker.scanCategories e cats totals fuel j
      = some (totals.set k (totals.getD k 0 + e.amount), true) := by
  induction fuel generalizing j with
  | zero => omega
  | succ fuel ih =>
    have hj : j < cats.length := by omega
    rw [ExpenseTracker.scanCategories, List.getElem?_eq_getElem hj]
    simp only [Option.some_bind]
    by_cases hjk2 : j = k
    · subst hjk2
      have hjT : j < totals.length := by omega
      rw [List.getElem?_eq_getElem hj] at hck
      have heq : e.category = cats[j] := (Option.some.inj hck).symm
      rw [if_pos heq, List.getElem?_eq_getElem hjT]
      simp only [Option.some_bind, writeAt, if_pos hjT, Option.map_some',
        List.getD_eq_getElem?_getD, List.getElem?_eq_getElem hjT, Option.getD_some]
    · have hne : ¬ e.category = cats[j] := by
        intro heq
        apply hbefore j (le_refl _) (by omega)
        rw [List.getElem?_eq_getElem hj, heq]
      rw [if_neg hne]
      exact ih (j + 1) (by omega) (by omega) (by omega) (by omega)
        (fun i hi1 hi2 => hbefore i (by omega) hi2)

theorem take_succ_set {α : Type} (l : List α) (n : Nat) (v : α) (h : n < l.length) :
    (l.set n v).take (n + 1) = l.take n ++ [v] := by
  rw [List.take_succ, List.getElem?_set, if_pos rfl, if_pos h]
  congr 1
  apply List.ext_getElem?
  intro i
  simp only [List.getElem?_take, List.getElem?_set]
  by_cases hi : i < n
  · have : ¬ n = i := by omega
    simp [hi, this]
  · simp [hi]

theorem take_set_add (tots : List ℚ) (K : List String) (f g : String → ℚ) (n k : Nat) (a : ℚ)
    (htake : tots.take n = K.map f) (hn : n ≤ tots.length)
    (hgk : ∀ x, K[k]? = some x → g x = f x + a)
    (hg : ∀ i x, i ≠ k → K[i]? = some x → g x = f x) :
    (tots.set k (tots.getD k 0 + a)).take n = K.map g := by
  have hget : ∀ i, i < n → tots[i]? = (K[i]?).map f := by
    intro i hi
    have := congrArg (fun l => l[i]?) htake
    simp only [List.getElem?_take, if_pos hi, List.getElem?_map] at this
    exact this
  have hKlen : K.length = n := by
    have := congrArg List.length htake
    simp only [List.length_take, List.length_map] at this
    omega
  apply List.ext_getElem?
  intro i
  simp only [List.getElem?_take, List.getElem?_set, List.getElem?_map]
  by_cases hi : i < n
  · have hiK : i < K.length := by omega
    have hiT : i < tots.length := by omega
    rw [if_pos hi]
    by_cases hik : k = i
    · subst hik
      have h1 := hget k hi
      rw [List.getElem?_eq_getElem hiK] at h1
      simp only [Option.map_some'] at h1
      rw [if_pos rfl, if_pos hiT, List.getElem?_eq_getElem hiK, Option.map_some',
        hgk K[k] (List.getElem?_eq_getElem hiK), List.getD_eq_getElem?_getD, h1]
      rfl
    · rw [if_neg hik, hget i hi, List.getElem?_eq_getElem hiK]
      simp only [Option.map_some']
      rw [hg i K[i] (fun h => hik h.symm) (List.getElem?_eq_getElem hiK)]
  · rw [if_neg hi]
    have : K.length ≤ i := by omega
    rw [List.getElem?_eq_none this]
    rfl

theorem map_categoryTotal_concat_of_not_mem (l : List Expense) (e : Expense) (K : List String)
    (h : e.category ∉ K) :
    K.map (categoryTotal (l ++ [e])) = K.map (categoryTotal l) := by
  apply List.map_congr_left
  intro x hx
  have hne : ¬ e.category = x := fun heq => h (heq ▸ hx)
  rw [categoryTotal_concat, if_neg hne, add_zero]

theorem categoriesOf_concat (l : List Expense) (e : Expense) :
    categoriesOf (l ++ [e]) = categoriesOf l ++ [e.category] := by
  simp [categoriesOf]

/-- One iteration of the loop of `getSummary` runs without an undefined step and keeps the
relation `SummaryInv`. -/
theorem summaryStep_inv (l : List Expense) (s : ExpenseTracker.SummaryState) (e : Expense)
    (h : SummaryInv l s) :
    ∃ s1, ExpenseTracker.summaryStep s e = some s1 ∧ SummaryInv (l ++ [e]) s1 := by
  obtain ⟨hC, hT, hn, hK, hTot, hsum⟩ := h
  have hKlen : (s.uniqueCategories.take s.categoryCount).length = s.categoryCount :=
    List.length_take_of_le (by omega)
  have hKnodup : (s.uniqueCategories.take s.categoryCount).Nodup := by
    rw [hK]
    exact (nodup_firstSeen _).sublist (List.take_sublist _ _)
  have hFlen : min MAX_CATEGORIES (firstSeen (categoriesOf l)).length = s.categoryCount := by
    have := congrArg List.length hK
    rw [hKlen, List.length_take] at this
    exact this.symm
  by_cases hmem : e.category ∈ s.uniqueCategories.take s.categoryCount
  · -- the category is already in the table
    obtain ⟨k, hk, hkc⟩ := List.getElem_of_mem hmem
    have hkn : k < s.categoryCount := by omega
    have hKk : (s.uniqueCategories.take s.categoryCount)[k]? = some e.category := by
      rw [List.getElem?_eq_getElem hk, hkc]
    have hck : s.uniqueCategories[k]? = some e.category := by
      rw [List.getElem?_take, if_pos hkn] at hKk
      exact hKk
    have hother : ∀ i, i ≠ k → (s.uniqueCategories.take s.categoryCount)[i]?
        ≠ some e.category := by
      intro i hik hi
      obtain ⟨hi1, hi2⟩ := List.getElem?_eq_some.1 hi
      exact hik ((hKnodup.getElem_inj_iff).1 (hi2.trans hkc.symm))
    have hscan := scanCategories_found e s.uniqueCategories s.totals s.categoryCount 0 k
      (by omega) (by omega) (Nat.zero_le _) (by omega) hck
      (fun i _ hi hc => hother i (by omega) (by
        rw [List.getElem?_take, if_pos (by omega)]; exact hc))
    refine ⟨{ s with totals := s.totals.set k (s.totals.getD k 0 + e.amount),
                     totalExpenses := s.totalExpenses + e.amount }, ?_, ?_⟩
    · simp [ExpenseTracker.summaryStep, hscan]
    · refine ⟨hC, by simp [hT], hn, ?_, ?_, ?_⟩
      · have hF : e.category ∈ firstSeen (categoriesOf l) := by
          rw [hK] at hmem
          exact List.mem_of_mem_take hmem
        simp only [categoriesOf_concat, firstSeen_concat, if_pos hF]
        exact hK
      · apply take_set_add s.totals _ (categoryTotal l) _ _ k e.amount hTot (by omega)
        · intro x hx
          rw [hKk] at hx
          have : e.category = x := Option.some.inj hx
          rw [categoryTotal_concat, if_pos this]
        · intro i x hik hx
          have hne : ¬ e.category = x := by
            intro heq
            exact hother i hik (heq ▸ hx)
          rw [categoryTotal_concat, if_neg hne, add_zero]
      · simp only [hsum, amountSum_append]
        simp [amountSum]
  · -- a category not in the table
    have hscan := scanCategories_not_found e s.uniqueCategories s.totals s.categoryCount 0
      (by omega) (fun i _ hi hc => hmem (List.mem_iff_getElem?.2 ⟨i, by
        rw [List.getElem?_take, if_pos (by omega)]; exact hc⟩))
    by_cases hroom : s.categoryCount < MAX_CATEGORIES
    · have hFeq : (firstSeen (categoriesOf l)).length = s.categoryCount := by omega
      have hKF : s.uniqueCategories.take s.categoryCount = firstSeen (categoriesOf l) := by
        rw [hK, List.take_of_length_le (by omega)]
      have hnotF : e.category ∉ firstSeen (categoriesOf l) := by rw [← hKF]; exact hmem
      have hnotl : e.category ∉ categoriesOf l := fun hc => hnotF ((mem_firstSeen _ _).2 hc)
      have hnC : s.categoryCount < s.uniqueCategories.length := by omega
      have hnT : s.categoryCount < s.totals.length := by omega
      refine ⟨{ s with uniqueCategories := s.uniqueCategories.set s.categoryCount e.category,
                       totals := s.totals.set s.categoryCount e.amount,
                       categoryCount := s.categoryCount + 1,
                       totalExpenses := s.totalExpenses + e.amount }, ?_, ?_⟩
      · simp [ExpenseTracker.summaryStep, hscan, hroom, writeAt, hnC, hnT]
      · refine ⟨by simp [hC], by simp [hT], by simp only; omega, ?_, ?_, ?_⟩
        · simp only [categoriesOf_concat, firstSeen_concat, if_neg hnotF]
          rw [take_succ_set _ _ _ hnC, hKF, List.take_of_length_le]
          simp only [List.length_append, List.length_singleton]
          omega
        · simp only
          rw [take_succ_set _ _ _ hnC, take_succ_set _ _ _ hnT, hTot, List.map_append,
            map_categoryTotal_concat_of_not_mem l e _ hmem, List.map_singleton,
            categoryTotal_concat, if_pos rfl, categoryTotal_eq_zero l _ hnotl, zero_add]
        · simp only [hsum, amountSum_append]
          simp [amountSum]
    · have hfull : s.categoryCount = MAX_CATEGORIES := by omega
      refine ⟨{ s with warnings := s.warnings + 1,
                       totalExpenses := s.totalExpenses + e.amount }, ?_, ?_⟩
      · simp [ExpenseTracker.summaryStep, hscan, hroom]
      · refine ⟨hC, hT, hn, ?_, ?_, ?_⟩
        · simp only [categoriesOf_concat, firstSeen_concat]
          by_cases hF : e.category ∈ firstSeen (categoriesOf l)
          · rw [if_pos hF]; exact hK
          · rw [if_neg hF, List.take_append_of_le_length (by omega)]; exact hK
        · simp only
          rw [map_categoryTotal_concat_of_not_mem l e _ hmem]
          exact hTot
        · simp only [hsum, amountSum_append]
          simp [amountSum]

theorem summaryInit_inv : SummaryInv [] ExpenseTracker.summaryInit := by
  refine ⟨by simp [ExpenseTracker.summaryInit], by simp [ExpenseTracker.summaryInit],
    Nat.zero_le _, ?_, ?_, ?_⟩
  · simp [ExpenseTracker.summaryInit, categoriesOf, firstSeen_nil]
  · simp [ExpenseTracker.summaryInit]
  · simp [ExpenseTracker.summaryInit, amountSum]

theorem summaryFold_inv (l₀ l : List Expense) (s : ExpenseTracker.SummaryState)
    (h : SummaryInv l₀ s) :
    ∃ s1, l.foldlM ExpenseTracker.summaryStep s = some s1 ∧ SummaryInv (l₀ ++ l) s1 := by
  induction l generalizing l₀ s with
  | nil => exact ⟨s, rfl, by simpa using h⟩
  | cons e l ih =>
    obtain ⟨s1, hs1, hinv1⟩ := summaryStep_inv l₀ s e h
    obtain ⟨s2, hs2, hinv2⟩ := ih (l₀ ++ [e]) s1 hinv1
    refine ⟨s2, ?_, by simpa using hinv2⟩
    rw [List.foldlM_cons, hs1]
    exact hs2

/-- On a well-formed, non-empty state `getSummary` runs to its report, whose local variables
stand in the relation `SummaryInv` to the stored records. -/
theorem WF.getSummary_eq {t : Tracker} (h : WF t) (hne : t.size ≠ 0) :
    ∃ s, ExpenseTracker.getSummary t = some (ExpenseTracker.SummaryOutput.report s) ∧
      SummaryInv (records t) s := by
  obtain ⟨s, hs, hinv⟩ := summaryFold_inv [] (records t) _ summaryInit_inv
  refine ⟨s, ?_, by simpa using hinv⟩
  simp only [ExpenseTracker.getSummary, if_neg hne, h.forEach_eq, hs, Option.map_some']

end ExpenseApp

/-! ## Summary: claims C8 to C10 -/

namespace ExpenseApp

theorem zip_map_self (K : List String) (f : String → ℚ) :
    K.zip (K.map f) = K.map (fun c => (c, f c)) := by
  induction K with
  | nil => rfl
  | cons c K ih => simp [ih]

theorem SummaryInv.breakdown_eq {l : List Expense} {s : ExpenseTracker.SummaryState}
    (h : SummaryInv l s) :
    s.breakdown = ((firstSeen (categoriesOf l)).take MAX_CATEGORIES).map
      (fun c => (c, categoryTotal l c)) := by
  obtain ⟨_, _, _, hK, hTot, _⟩ := h
  rw [ExpenseTracker.SummaryState.breakdown, hTot, zip_map_self, hK]

theorem SummaryInv.categoryCount_eq {l : List Expense} {s : ExpenseTracker.SummaryState}
    (h : SummaryInv l s) :
    s.categoryCount = min (categoriesOf l).dedup.length MAX_CATEGORIES := by
  obtain ⟨hC, _, hn, hK, _, _⟩ := h
  have := congrArg List.length hK
  rw [List.length_take_of_le (by omega), List.length_take, length_firstSeen] at this
  rw [this, min_comm]

theorem getSummary_of_size_zero (t : Tracker) (h : t.size = 0) :
    ExpenseTracker.getSummary t = some ExpenseTracker.SummaryOutput.noExpenses := by
  simp [ExpenseTracker.getSummary, h]

/-- C8, the claim as stated fails: on a store of 51 valid records of amount 1 with 51 distinct
categories, `getSummary` ends with 50 categories whose totals add up to 50, while the grand
total is 51. -/
theorem C8_category_totals_differ_from_grand_total :
    WF manyCategoriesStore ∧
    (∀ e ∈ records manyCategoriesStore,
      isValidDate e.date = true ∧ 0 < e.amount ∧ e.category ≠ "" ∧ e.description ≠ "") ∧
    ∃ s, ExpenseTracker.getSummary manyCategoriesStore
        = some (ExpenseTracker.SummaryOutput.report s) ∧
      s.categoryCount = 50 ∧ (s.totals.take s.categoryCount).sum = 50 ∧
      s.totalExpenses = 51 := by
  refine ⟨WF_ofList _ _ (by decide), ?_, ?_⟩
  · rw [manyCategoriesStore, records_ofList]
    decide!
  · refine ⟨_, rfl, ?_, ?_, ?_⟩ <;> decide!

/-- C8 as amended. For every store holding at most `MAX_CATEGORIES` (50) distinct categories,
the totals `totals[0 .. categoryCount)` computed by `getSummary` add up to the grand total
`totalExpenses` it computes (on the empty store `getSummary` prints the no-expenses message and
computes nothing). -/
theorem C8_category_totals_sum_to_grand_total (t : Tracker) (hwf : WF t)
    (hdistinct : (categoriesOf (records t)).dedup.length ≤ MAX_CATEGORIES) :
    (t.size = 0 ∧
      ExpenseTracker.getSummary t = some ExpenseTracker.SummaryOutput.noExpenses) ∨
    ∃ s, ExpenseTracker.getSummary t = some (ExpenseTracker.SummaryOutput.report s) ∧
      (s.totals.take s.categoryCount).sum = s.totalExpenses := by
  by_cases hz : t.size = 0
  · exact Or.inl ⟨hz, getSummary_of_size_zero t hz⟩
  · right
    obtain ⟨s, hs, hinv⟩ := hwf.getSummary_eq hz
    refine ⟨s, hs, ?_⟩
    obtain ⟨_, _, _, hK, hTot, hsum⟩ := hinv
    have hall : (firstSeen (categoriesOf (records t))).take MAX_CATEGORIES
        = firstSeen (categoriesOf (records t)) :=
      List.take_of_length_le (by rw [length_firstSeen]; exact hdistinct)
    rw [hTot, hK, hall, hsum]
    apply sum_categoryTotal _ _ (nodup_firstSeen _)
    intro e he
    rw [mem_firstSeen]
    exact List.mem_map_of_mem _ he

/-- C8 as amended, on the store of `test_filtering` (three distinct categories). -/
theorem C8_category_totals_sum_to_grand_total_witness :
    WF filteringStore ∧ (categoriesOf (records filteringStore)).dedup.length ≤ MAX_CATEGORIES ∧
    ((filteringStore.size = 0 ∧
      ExpenseTracker.getSummary filteringStore
        = some ExpenseTracker.SummaryOutput.noExpenses) ∨
    ∃ s, ExpenseTracker.getSummary filteringStore
        = some (ExpenseTracker.SummaryOutput.report s) ∧
      (s.totals.take s.categoryCount).sum = s.totalExpenses) :=
  ⟨WF_ofList _ _ (by decide), by decide!,
    C8_category_totals_sum_to_grand_total filteringStore (WF_ofList _ _ (by decide))
      (by decide!)⟩

/-- C9. For every store with at most 50 distinct categories, the breakdown computed by
`getSummary` lists every distinct stored category exactly once, in the order of the first
occurrences of the categories in insertion order, and pairs each category with the sum of the
amounts of all stored records of that category. -/
theorem C9_breakdown_first_seen_order (t : Tracker) (hwf : WF t)
    (hdistinct : (categoriesOf (records t)).dedup.length ≤ MAX_CATEGORIES) :
    (t.size = 0 ∧
      ExpenseTracker.getSummary t = some ExpenseTracker.SummaryOutput.noExpenses) ∨
    ∃ s, ExpenseTracker.getSummary t = some (ExpenseTracker.SummaryOutput.report s) ∧
      (s.breakdown.map Prod.fst).Nodup ∧
      (∀ c, c ∈ s.breakdown.map Prod.fst ↔ c ∈ categoriesOf (records t)) ∧
      (s.breakdown.map Prod.fst).Pairwise (fun a b =>
        (categoriesOf (records t)).indexOf a < (categoriesOf (records t)).indexOf b) ∧
      (∀ p ∈ s.breakdown, p.2 = categoryTotal (records t) p.1) ∧
      s.breakdown.map Prod.fst = firstSeen (categoriesOf (records t)) := by
  by_cases hz : t.size = 0
  · exact Or.inl ⟨hz, getSummary_of_size_zero t hz⟩
  · right
    obtain ⟨s, hs, hinv⟩ := hwf.getSummary_eq hz
    have hall : (firstSeen (categoriesOf (records t))).take MAX_CATEGORIES
        = firstSeen (categoriesOf (records t)) :=
      List.take_of_length_le (by rw [length_firstSeen]; exact hdistinct)
    have hb := hinv.breakdown_eq
    rw [hall] at hb
    have hfst : s.breakdown.map Prod.fst = firstSeen (categoriesOf (records t)) := by
      rw [hb, List.map_map]
      exact List.map_id _
    refine ⟨s, hs, ?_, ?_, ?_, ?_, hfst⟩
    · rw [hfst]; exact nodup_firstSeen _
    · intro c; rw [hfst]; exact mem_firstSeen _ c
    · rw [hfst]; exact pairwise_firstSeen _
    · intro p hp
      rw [hb, List.mem_map] at hp
      obtain ⟨c, _, rfl⟩ := hp
      rfl

/-- C9 on the store of `test_filtering`: the breakdown is `Food`, `Transport`,
`Entertainment` with the totals 41.49, 50 and 100. -/
theorem C9_breakdown_first_seen_order_witness :
    WF filteringStore ∧ (categoriesOf (records filteringStore)).dedup.length ≤ MAX_CATEGORIES ∧
    (ExpenseTracker.getSummary filteringStore).map (fun o => match o with
      | ExpenseTracker.SummaryOutput.report s => s.breakdown
      | ExpenseTracker.SummaryOutput.noExpenses => [])
      = some [("Food", 4149 / 100), ("Transport", 50), ("Entertainment", 100)] ∧
    ((filteringStore.size = 0 ∧
      ExpenseTracker.getSummary filteringStore
        = some ExpenseTracker.SummaryOutput.noExpenses) ∨
    ∃ s, ExpenseTracker.getSummary filteringStore
        = some (ExpenseTracker.SummaryOutput.report s) ∧
      (s.breakdown.map Prod.fst).Nodup ∧
      (∀ c, c ∈ s.breakdown.map Prod.fst ↔ c ∈ categoriesOf (records filteringStore)) ∧
      (s.breakdown.map Prod.fst).Pairwise (fun a b =>
        (categoriesOf (records filteringStore)).indexOf a
          < (categoriesOf (records filteringStore)).indexOf b) ∧
      (∀ p ∈ s.breakdown, p.2 = categoryTotal (records filteringStore) p.1) ∧
      s.breakdown.map Prod.fst = firstSeen (categoriesOf (records filteringStore))) :=
  ⟨WF_ofList _ _ (by decide), by decide!, by decide!,
    C9_breakdown_first_seen_order filteringStore (WF_ofList _ _ (by decide)) (by decide!)⟩

/-- C10. For every store, whatever the number of its distinct categories, `getSummary` runs
without an out-of-range access: both arrays keep their 50 cells and `categoryCount` is the
smaller of 50 and the number of distinct categories.  The breakdown is made of the first 50
distinct categories in first-seen order, each with the total of its records; a category first
seen after them is not in the breakdown; the grand total is the sum of the amounts of all
stored records. -/
theorem C10_breakdown_capped_total_complete (t : Tracker) (hwf : WF t) :
    (t.size = 0 ∧
      ExpenseTracker.getSummary t = some ExpenseTracker.SummaryOutput.noExpenses) ∨
    ∃ s, ExpenseTracker.getSummary t = some (ExpenseTracker.SummaryOutput.report s) ∧
      s.uniqueCategories.length = MAX_CATEGORIES ∧ s.totals.length = MAX_CATEGORIES ∧
      s.categoryCount ≤ MAX_CATEGORIES ∧
      s.categoryCount = min (categoriesOf (records t)).dedup.length MAX_CATEGORIES ∧
      s.breakdown.length = min (categoriesOf (records t)).dedup.length MAX_CATEGORIES ∧
      s.breakdown = ((firstSeen (categoriesOf (records t))).take MAX_CATEGORIES).map
        (fun c => (c, categoryTotal (records t) c)) ∧
      (∀ c ∈ (firstSeen (categoriesOf (records t))).drop MAX_CATEGORIES,
        c ∉ s.breakdown.map Prod.fst) ∧
      s.totalExpenses = amountSum (records t) := by
  by_cases hz : t.size = 0
  · exact Or.inl ⟨hz, getSummary_of_size_zero t hz⟩
  · right
    obtain ⟨s, hs, hinv⟩ := hwf.getSummary_eq hz
    have hb := hinv.breakdown_eq
    have hcount := hinv.categoryCount_eq
    have hfst : s.breakdown.map Prod.fst
        = (firstSeen (categoriesOf (records t))).take MAX_CATEGORIES := by
      rw [hb, List.map_map]
      exact List.map_id _
    refine ⟨s, hs, hinv.1, hinv.2.1, hinv.2.2.1, hcount, ?_, hb, ?_, hinv.2.2.2.2.2⟩
    · rw [hb, List.length_map, List.length_take, length_firstSeen, min_comm]
    · intro c hc hc2
      rw [hfst] at hc2
      have hnd := nodup_firstSeen (categoriesOf (records t))
      rw [← List.take_append_drop MAX_CATEGORIES (firstSeen (categoriesOf (records t))),
        List.nodup_append] at hnd
      exact hnd.2.2 hc2 hc

/-- C10 on a store of 51 records with 51 distinct categories: the breakdown has 50 entries,
one warning is printed, and the grand total counts all 51 records. -/
theorem C10_breakdown_capped_total_complete_witness :
    WF manyCategoriesStore ∧
    (categoriesOf (records manyCategoriesStore)).dedup.length = 51 ∧
    (manyCategoriesStore.size = 0 ∧
      ExpenseTracker.getSummary manyCategoriesStore
        = some ExpenseTracker.SummaryOutput.noExpenses ∨
    ∃ s, ExpenseTracker.getSummary manyCategoriesStore
        = some (ExpenseTracker.SummaryOutput.report s) ∧
      s.uniqueCategories.length = MAX_CATEGORIES ∧ s.totals.length = MAX_CATEGORIES ∧
      s.categoryCount ≤ MAX_CATEGORIES ∧
      s.categoryCount
        = min (categoriesOf (records manyCategoriesStore)).dedup.length MAX_CATEGORIES ∧
      s.breakdown.length
        = min (categoriesOf (records manyCategoriesStore)).dedup.length MAX_CATEGORIES ∧
      s.breakdown = ((firstSeen (categoriesOf (records manyCategoriesStore))).take
        MAX_CATEGORIES).map (fun c => (c, categoryTotal (records manyCategoriesStore) c)) ∧
      (∀ c ∈ (firstSeen (categoriesOf (records manyCategoriesStore))).drop MAX_CATEGORIES,
        c ∉ s.breakdown.map Prod.fst) ∧
      s.totalExpenses = amountSum (records manyCategoriesStore)) :=
  ⟨WF_ofList _ _ (by decide), by decide!,
    C10_breakdown_capped_total_complete manyCategoriesStore (WF_ofList _ _ (by decide))⟩

end ExpenseApp

/-! ## Growth over a sequence of insertions: claim C11 -/

namespace ExpenseApp

theorem harness_addAll_eq (t : Tracker) (l : List Expense) (hwf : WF t)
    (hvalid : ∀ e ∈ l, ValidExpense e) :
    ∃ t1, TestableExpenseTracker.addAll t l = some t1 ∧ WF t1 ∧
      t1.size = t.size + l.length ∧ records t1 = records t ++ l := by
  induction l generalizing t with
  | nil => exact ⟨t, rfl, hwf, by simp, by simp⟩
  | cons e l ih =>
    obtain ⟨hd, ha, hc, hdesc⟩ := hvalid e (List.mem_cons_self _ _)
    obtain ⟨t1, hg, hwf1, hrec1, hsize1, hlt1, _⟩ := hwf.growIfFull_eq
    obtain ⟨t2, hp, hwf2, hrec2, hsize2, _⟩ := hwf1.push_eq hlt1 e
    obtain ⟨t3, h3, hwf3, hsize3, hrec3⟩ :=
      ih t2 hwf2 (fun e1 he1 => hvalid e1 (List.mem_cons_of_mem _ he1))
    refine ⟨t3, ?_, hwf3, ?_, ?_⟩
    · have hadd : TestableExpenseTracker.addExpense t e.date e.amount e.category e.description
          = some (t2, true) := by
        have hce := (empty_eq_false_iff e.category).2 hc
        have hde := (empty_eq_false_iff e.description).2 hdesc
        have hna : ¬ e.amount ≤ 0 := not_le.2 ha
        simp [TestableExpenseTracker.addExpense, hd, hce, hde, hna, hg, hp]
      simp only [TestableExpenseTracker.addAll, List.foldlM_cons, hadd, Option.map_some',
        Option.bind_eq_bind, Option.some_bind]
      exact h3
    · rw [hsize3, hsize2, hsize1, List.length_cons]; omega
    · rw [hrec3, hrec2, hrec1, List.append_assoc, List.singleton_append]

theorem production_addAll_eq (t : Tracker) (l : List Expense) (hwf : WF t)
    (hvalid : ∀ e ∈ l, ValidExpense e) :
    ∃ t1, ExpenseTracker.addAll t l = some t1 ∧ WF t1 ∧
      t1.size = t.size + l.length ∧ records t1 = records t ++ l := by
  induction l generalizing t with
  | nil => exact ⟨t, rfl, hwf, by simp, by simp⟩
  | cons e l ih =>
    obtain ⟨_, _, hc, hdesc⟩ := hvalid e (List.mem_cons_self _ _)
    obtain ⟨t1, hg, hwf1, hrec1, hsize1, hlt1, _⟩ := hwf.growIfFull_eq
    obtain ⟨t2, hp, hwf2, hrec2, hsize2, _⟩ := hwf1.push_eq hlt1 e
    obtain ⟨t3, h3, hwf3, hsize3, hrec3⟩ :=
      ih t2 hwf2 (fun e1 he1 => hvalid e1 (List.mem_cons_of_mem _ he1))
    refine ⟨t3, ?_, hwf3, ?_, ?_⟩
    · have hadd : ExpenseTracker.addExpenses t e.date e.amount e.category e.description
          = some (t2, AddMessage.added) := by
        have hce := (empty_eq_false_iff e.category).2 hc
        have hde := (empty_eq_false_iff e.description).2 hdesc
        simp [ExpenseTracker.addExpenses, hce, hde, hg, hp]
      simp only [ExpenseTracker.addAll, List.foldlM_cons, hadd, Option.map_some',
        Option.bind_eq_bind, Option.some_bind]
      exact h3
    · rw [hsize3, hsize2, hsize1, List.length_cons]; omega
    · rw [hrec3, hrec2, hrec1, List.append_assoc, List.singleton_append]

theorem WF.resize_spec {t : Tracker} (h : WF t) :
    ∃ t1, resize t = some t1 ∧ WF t1 ∧ t1.capacity = t.capacity * 2 ∧ t1.size = t.size ∧
      records t1 = records t ∧ ∀ i, i < t.size → t1.expenses[i]? = t.expenses[i]? := by
  have hlen := h.records_length
  have hpos := h.2.1
  refine ⟨_, h.resize_eq, WF_ofList _ _ (by omega), ?_, ?_, records_ofList _ _, ?_⟩
  · simp only [ofList, hlen]
    have := h.2.2.1
    omega
  · simp only [ofList, hlen]
  · intro i hi
    have h1 : (t.expenses.take t.size)[i]? = t.expenses[i]? := by
      rw [List.getElem?_take, if_pos hi]
    simp only [ofList]
    rw [List.getElem?_append_left (by simpa [hlen] using hi), ← h.take_eq, h1]

/-- C11. For every list of valid expenses added one after another to a freshly constructed
store (capacity 10), in the test harness and in the production class alike, every call is
carried out and the store ends with exactly these records, in the order of insertion, whatever
the number of resize steps; and every resize doubles the capacity while leaving the size and
each of the slots `expenses[0 .. size)`, hence the stored sequence, unchanged. -/
theorem C11_growth_preserves_insertion_order (l : List Expense)
    (hvalid : ∀ e ∈ l, ValidExpense e) :
    (∃ t, TestableExpenseTracker.addAll Tracker.ctor l = some t ∧ WF t ∧
      TestableExpenseTracker.getSize t = l.length ∧ records t = l) ∧
    (∃ t, ExpenseTracker.addAll Tracker.ctor l = some t ∧ WF t ∧
      t.size = l.length ∧ records t = l) ∧
    (∀ t, WF t → ∃ t1, resize t = some t1 ∧ WF t1 ∧ t1.capacity = t.capacity * 2 ∧
      t1.size = t.size ∧ records t1 = records t ∧
      ∀ i, i < t.size → t1.expenses[i]? = t.expenses[i]?) := by
  refine ⟨?_, ?_, fun t hwf => hwf.resize_spec⟩
  · obtain ⟨t, ht, hwf, hsize, hrec⟩ :=
      harness_addAll_eq Tracker.ctor l WF_ctor hvalid
    refine ⟨t, ht, hwf, ?_, ?_⟩
    · rw [TestableExpenseTracker.getSize, hsize]; simp [Tracker.ctor]
    · rw [hrec, records_ctor, List.nil_append]
  · obtain ⟨t, ht, hwf, hsize, hrec⟩ :=
      production_addAll_eq Tracker.ctor l WF_ctor hvalid
    refine ⟨t, ht, hwf, ?_, ?_⟩
    · rw [hsize]; simp [Tracker.ctor]
    · rw [hrec, records_ctor, List.nil_append]

/-- C11 on the fifteen records of `test_memory_management`: the size is 15, the total amount
is 150 and the capacity has doubled once, from 10 to 20. -/
theorem C11_growth_preserves_insertion_order_witness :
    (∀ e ∈ memoryTestExpenses, ValidExpense e) ∧ memoryTestExpenses.length = 15 ∧
    (TestableExpenseTracker.addAll Tracker.ctor memoryTestExpenses).map
      TestableExpenseTracker.getSize = some 15 ∧
    (TestableExpenseTracker.addAll Tracker.ctor memoryTestExpenses).bind
      TestableExpenseTracker.getTotalAmount = some 150 ∧
    (TestableExpenseTracker.addAll Tracker.ctor memoryTestExpenses).map
      (fun t => t.capacity) = some 20 ∧
    ((∃ t, TestableExpenseTracker.addAll Tracker.ctor memoryTestExpenses = some t ∧ WF t ∧
      TestableExpenseTracker.getSize t = memoryTestExpenses.length ∧
      records t = memoryTestExpenses) ∧
    (∃ t, ExpenseTracker.addAll Tracker.ctor memoryTestExpenses = some t ∧ WF t ∧
      t.size = memoryTestExpenses.length ∧ records t = memoryTestExpenses) ∧
    (∀ t, WF t → ∃ t1, resize t = some t1 ∧ WF t1 ∧ t1.capacity = t.capacity * 2 ∧
      t1.size = t.size ∧ records t1 = records t ∧
      ∀ i, i < t.size → t1.expenses[i]? = t.expenses[i]?)) :=
  ⟨by decide!, by decide, by decide!, by decide!, by decide!,
    C11_growth_preserves_insertion_order memoryTestExpenses (by decide!)⟩

end ExpenseApp

/-! ## Lexical and chronological order of dates: claim C12 -/

namespace ExpenseApp

theorem char_eq_iff_toNat (a b : Char) : a = b ↔ a.toNat = b.toNat := by
  constructor
  · intro h; rw [h]
  · intro h
    rw [← Char.ofNat_toNat a, ← Char.ofNat_toNat b, h]

theorem isdigit_iff (c : Char) : isdigit c = true ↔ 48 ≤ c.toNat ∧ c.toNat ≤ 57 := by
  simp only [isdigit, decide_eq_true_eq]
  exact Iff.rfl

theorem list_cons_lt_cons (a b : Char) (l l' : List Char) :
    (a :: l) < (b :: l') ↔ a.toNat < b.toNat ∨ (a.toNat = b.toNat ∧ l < l') := by
  rw [← char_eq_iff_toNat]
  constructor
  · intro h
    cases h with
    | cons h => exact Or.inr ⟨rfl, h⟩
    | rel h => exact Or.inl h
  · rintro (h | ⟨rfl, h⟩)
    · exact List.Lex.rel h
    · exact List.Lex.cons h

theorem list_nil_not_lt_nil : ¬ (([] : List Char) < []) := by
  intro h; cases h

/-- A string accepted by `isValidDate` is made of four digits, a dash, two digits, a dash and
two digits. -/
theorem isValidDate_data (s : String) (h : isValidDate s = true) :
    ∃ c0 c1 c2 c3 c5 c6 c8 c9 : Char,
      s = ⟨[c0, c1, c2, c3, '-', c5, c6, '-', c8, c9]⟩ ∧
      isdigit c0 = true ∧ isdigit c1 = true ∧ isdigit c2 = true ∧ isdigit c3 = true ∧
      isdigit c5 = true ∧ isdigit c6 = true ∧ isdigit c8 = true ∧ isdigit c9 = true := by
  obtain ⟨cs⟩ := s
  have hlen : cs.length = 10 := by
    have h1 := h
    simp [isValidDate, String.length] at h1
    exact h1.1
  match cs, hlen with
  | [c0, c1, c2, c3, c4, c5, c6, c7, c8, c9], _ =>
    have hr : List.range 10 = [0, 1, 2, 3, 4, 5, 6, 7, 8, 9] := by decide
    simp only [isValidDate, String.length, List.length_cons, List.length_nil, charAt, hr,
      List.getD_eq_getElem?_getD] at h
    simp at h
    obtain ⟨⟨h4, h7⟩, h0, h1, h2, h3, h5, h6, h8, h9⟩ := h
    subst h4 h7
    exact ⟨c0, c1, c2, c3, c5, c6, c8, c9, rfl, h0, h1, h2, h3, h5, h6, h8, h9⟩

theorem digitValue_of_isdigit (c : Char) (h : isdigit c = true) :
    digitValue c = c.toNat - 48 ∧ 48 ≤ c.toNat ∧ c.toNat ≤ 57 :=
  ⟨rfl, (isdigit_iff c).1 h⟩

/-- Between two accepted dates the order on strings implies the chronological order. -/
theorem chronoLt_of_lt (a b : String) (ha : isValidDate a = true) (hb : isValidDate b = true)
    (h : a < b) : chronoLt a b := by
  obtain ⟨a0, a1, a2, a3, a5, a6, a8, a9, rfl, ha0, ha1, ha2, ha3, ha5, ha6, ha8, ha9⟩ :=
    isValidDate_data a ha
  obtain ⟨b0, b1, b2, b3, b5, b6, b8, b9, rfl, hb0, hb1, hb2, hb3, hb5, hb6, hb8, hb9⟩ :=
    isValidDate_data b hb
  obtain ⟨ea0, la0, ua0⟩ := digitValue_of_isdigit a0 ha0
  obtain ⟨ea1, la1, ua1⟩ := digitValue_of_isdigit a1 ha1
  obtain ⟨ea2, la2, ua2⟩ := digitValue_of_isdigit a2 ha2
  obtain ⟨ea3, la3, ua3⟩ := digitValue_of_isdigit a3 ha3
  obtain ⟨ea5, la5, ua5⟩ := digitValue_of_isdigit a5 ha5
  obtain ⟨ea6, la6, ua6⟩ := digitValue_of_isdigit a6 ha6
  obtain ⟨ea8, la8, ua8⟩ := digitValue_of_isdigit a8 ha8
  obtain ⟨ea9, la9, ua9⟩ := digitValue_of_isdigit a9 ha9
  obtain ⟨eb0, lb0, ub0⟩ := digitValue_of_isdigit b0 hb0
  obtain ⟨eb1, lb1, ub1⟩ := digitValue_of_isdigit b1 hb1
  obtain ⟨eb2, lb2, ub2⟩ := digitValue_of_isdigit b2 hb2
  obtain ⟨eb3, lb3, ub3⟩ := digitValue_of_isdigit b3 hb3
  obtain ⟨eb5, lb5, ub5⟩ := digitValue_of_isdigit b5 hb5
  obtain ⟨eb6, lb6, ub6⟩ := digitValue_of_isdigit b6 hb6
  obtain ⟨eb8, lb8, ub8⟩ := digitValue_of_isdigit b8 hb8
  obtain ⟨eb9, lb9, ub9⟩ := digitValue_of_isdigit b9 hb9
  have hy : ∀ c0 c1 c2 c3 c5 c6 c8 c9 : Char,
      yearOf ⟨[c0, c1, c2, c3, '-', c5, c6, '-', c8, c9]⟩
        = 10 * (10 * (10 * (10 * 0 + digitValue c0) + digitValue c1) + digitValue c2)
          + digitValue c3 := fun _ _ _ _ _ _ _ _ => rfl
  have hm : ∀ c0 c1 c2 c3 c5 c6 c8 c9 : Char,
      monthOf ⟨[c0, c1, c2, c3, '-', c5, c6, '-', c8, c9]⟩
        = 10 * (10 * 0 + digitValue c5) + digitValue c6 := fun _ _ _ _ _ _ _ _ => rfl
  have hd : ∀ c0 c1 c2 c3 c5 c6 c8 c9 : Char,
      dayOf ⟨[c0, c1, c2, c3, '-', c5, c6, '-', c8, c9]⟩
        = 10 * (10 * 0 + digitValue c8) + digitValue c9 := fun _ _ _ _ _ _ _ _ => rfl
  rw [String.lt_iff_toList_lt] at h
  simp only [String.toList, list_cons_lt_cons, list_nil_not_lt_nil, lt_irrefl, and_false,
    or_false, false_or, true_and] at h
  simp only [chronoLt, hy, hm, hd, ea0, ea1, ea2, ea3, ea5, ea6, ea8, ea9, eb0, eb1, eb2, eb3,
    eb5, eb6, eb8, eb9]
  omega

/-- C12. For all strings `a` and `b` that `isValidDate` accepts, the order on strings used by
the date-range filter agrees with the chronological order: `a < b` exactly when the triple
(year, month, day) of `a`, read in decimal, is lexicographically smaller than that of `b`, and
`a = b` exactly when the two triples are equal. -/
theorem C12_lexical_order_is_chronological (a b : String) (ha : isValidDate a = true)
    (hb : isValidDate b = true) :
    (a < b ↔ chronoLt a b) ∧
    (a = b ↔ (yearOf a, monthOf a, dayOf a) = (yearOf b, monthOf b, dayOf b)) := by
  have hab := chronoLt_of_lt a b ha hb
  have hba := chronoLt_of_lt b a hb ha
  simp only [chronoLt] at hab hba
  simp only [chronoLt, Prod.mk.injEq]
  constructor
  · refine ⟨hab, fun h => ?_⟩
    rcases lt_trichotomy a b with hlt | heq | hgt
    · exact hlt
    · subst heq; omega
    · have := hba hgt; omega
  · constructor
    · intro h; subst h; exact ⟨rfl, rfl, rfl⟩
    · intro h
      rcases lt_trichotomy a b with hlt | heq | hgt
      · have := hab hlt; omega
      · exact heq
      · have := hba hgt; omega

/-- C12 on two dates of `test_filtering`, and on two dates with no calendar meaning. -/
theorem C12_lexical_order_is_chronological_witness :
    (isValidDate "2025-05-02" = true ∧ isValidDate "2025-12-01" = true ∧
      (yearOf "2025-05-02", monthOf "2025-05-02", dayOf "2025-05-02") = (2025, 5, 2) ∧
      (yearOf "2025-12-01", monthOf "2025-12-01", dayOf "2025-12-01") = (2025, 12, 1) ∧
      (("2025-05-02" < "2025-12-01" ↔ chronoLt "2025-05-02" "2025-12-01") ∧
       ("2025-05-02" = "2025-12-01" ↔
         (yearOf "2025-05-02", monthOf "2025-05-02", dayOf "2025-05-02")
           = (yearOf "2025-12-01", monthOf "2025-12-01", dayOf "2025-12-01")))) ∧
    (isValidDate "2025-13-99" = true ∧ isValidDate "2025-14-00" = true ∧
      (("2025-13-99" < "2025-14-00" ↔ chronoLt "2025-13-99" "2025-14-00") ∧
       ("2025-13-99" = "2025-14-00" ↔
         (yearOf "2025-13-99", monthOf "2025-13-99", dayOf "2025-13-99")
           = (yearOf "2025-14-00", monthOf "2025-14-00", dayOf "2025-14-00")))) :=
  ⟨⟨by decide, by decide, by decide, by decide,
      C12_lexical_order_is_chronological "2025-05-02" "2025-12-01" (by decide) (by decide)⟩,
    ⟨by decide, by decide,
      C12_lexical_order_is_chronological "2025-13-99" "2025-14-00" (by decide) (by decide)⟩⟩

end ExpenseApp

/-! ## Reachable states of the production tracker: claim C13 -/

namespace ExpenseApp

theorem WF.addExpenses_step {t t1 : Tracker} {msg : AddMessage} {date : String} {amount : ℚ}
    {category description : String} (hwf : WF t)
    (h : ExpenseTracker.addExpenses t date amount category description = some (t1, msg)) :
    WF t1 ∧ (t1.capacity = t.capacity ∨ t1.capacity = t.capacity * 2) := by
  obtain ⟨g, hg, hwfg, _, _, hlt, hcap⟩ := hwf.growIfFull_eq
  have hcapg : g.capacity = t.capacity ∨ g.capacity = t.capacity * 2 := by
    rcases hcap with ⟨_, rfl⟩ | ⟨_, h2⟩
    · exact Or.inl rfl
    · exact Or.inr h2
  obtain ⟨p, hp, hwfp, _, _, hcapp⟩ :=
    hwfg.push_eq hlt ⟨date, amount, category, description⟩
  simp only [ExpenseTracker.addExpenses, hg, Option.some_bind, hp, Option.map_some'] at h
  by_cases hc : empty category = true
  · simp only [hc, if_true, Option.some.injEq, Prod.mk.injEq] at h
    rw [← h.1]; exact ⟨hwfg, hcapg⟩
  · by_cases hd : empty description = true
    · simp only [hc, hd, if_true, Bool.false_eq_true, if_false, Option.some.injEq,
        Prod.mk.injEq] at h
      rw [← h.1]; exact ⟨hwfg, hcapg⟩
    · simp only [hc, hd, Bool.false_eq_true, if_false, Option.some.injEq, Prod.mk.injEq] at h
      rw [← h.1, hcapp]; exact ⟨hwfp, hcapg⟩

/-- When both allocations succeed, `addExpensesAlloc` is `addExpenses`. -/
theorem addExpensesAlloc_of_success (t : Tracker) (date : String) (amount : ℚ)
    (category description : String) :
    ExpenseTracker.addExpensesAlloc true true t date amount category description
      = ExpenseTracker.addExpenses t date amount category description := by
  simp only [ExpenseTracker.addExpensesAlloc, ExpenseTracker.addExpenses, growIfFull,
    ExpenseTracker.resizeAlloc, resize]
  by_cases hfull : t.size ≥ t.capacity
  · simp only [if_pos hfull, if_true]
    cases copyLoop t.expenses t.size (List.replicate (t.capacity * 2) none) with
    | none => rfl
    | some arr => simp
  · simp [if_neg hfull]

/-- The calls of `addAll`, in which every allocation succeeds, lead from a reachable state to
a reachable state. -/
theorem Reachable.addAll {t t1 : Tracker} (l : List Expense)
    (h : ExpenseTracker.Reachable t) (hl : ExpenseTracker.addAll t l = some t1) :
    ExpenseTracker.Reachable t1 := by
  induction l generalizing t with
  | nil =>
    simp only [ExpenseTracker.addAll, List.foldlM_nil, pure, Option.some.injEq] at hl
    rw [← hl]; exact h
  | cons e l ih =>
    simp only [ExpenseTracker.addAll, List.foldlM_cons, Option.bind_eq_bind] at hl
    cases hstep : ExpenseTracker.addExpenses t e.date e.amount e.category e.description with
    | none => simp [hstep] at hl
    | some r =>
      simp only [hstep, Option.map_some', Option.some_bind] at hl
      apply ih _ hl
      exact ExpenseTracker.Reachable.step true true t r.1 r.2 e.date e.amount e.category
        e.description h (by rw [addExpensesAlloc_of_success, hstep])

/-- C13, the code leaves the bounds the claim states.  The full store of ten records is
reachable.  A call of `addExpenses` on it, in which `new` throws inside `resize`, returns
normally with `capacity` doubled to 20 over the old array of ten slots: in that reachable state
`size <= capacity` and `capacity = 10 * 2 ^ 1` still hold, but `capacity` is no longer the
number of slots.  The next call, with valid arguments and memory available, finds
`size < capacity`, does not resize, and its write `expenses[size++]` at index 10 is outside the
array. -/
theorem C13_failed_resize_then_write_out_of_bounds :
    ExpenseTracker.Reachable fullStore ∧
    fullStore.size = 10 ∧ fullStore.capacity = 10 ∧ fullStore.expenses.length = 10 ∧
    ExpenseTracker.addExpensesAlloc false true fullStore "2025-05-11" 10 "Test" "Test expense"
      = some (failedResizeStore, AddMessage.resizeFailed) ∧
    ExpenseTracker.Reachable failedResizeStore ∧
    failedResizeStore.size ≤ failedResizeStore.capacity ∧
    failedResizeStore.capacity = 10 * 2 ^ 1 ∧
    failedResizeStore.size = 10 ∧ failedResizeStore.expenses.length = 10 ∧
    growIfFull failedResizeStore = some failedResizeStore ∧
    push failedResizeStore ⟨"2025-05-12", 10, "Test", "Test expense"⟩ = none ∧
    ExpenseTracker.addExpensesAlloc true true failedResizeStore
      "2025-05-12" 10 "Test" "Test expense" = none :=
  have hfull : ExpenseTracker.Reachable fullStore :=
    Reachable.addAll (records fullStore) ExpenseTracker.Reachable.ctor (by decide!)
  have hstep : ExpenseTracker.addExpensesAlloc false true fullStore
      "2025-05-11" 10 "Test" "Test expense"
      = some (failedResizeStore, AddMessage.resizeFailed) := by decide!
  ⟨hfull, by decide, by decide, by decide, hstep,
    ExpenseTracker.Reachable.step false true fullStore failedResizeStore
      AddMessage.resizeFailed "2025-05-11" 10 "Test" "Test expense" hfull hstep,
    by decide, by decide, by decide, by decide, by decide!, by decide!, by decide!⟩

end ExpenseApp

/-! ## The date-range count of the test harness: claim C14 -/

namespace ExpenseApp

theorem WF.countByDateRange_eq {t : Tracker} (h : WF t) (startDate endDate : String) :
    TestableExpenseTracker.countByDateRange t startDate endDate
      = some ((records t).filter (fun e =>
          decide (startDate ≤ e.date ∧ e.date ≤ endDate))).length := by
  simp only [TestableExpenseTracker.countByDateRange]
  rw [h.forEach_eq, countFold_eq (fun e => e.date ≥ startDate ∧ e.date ≤ endDate)]
  simp

/-- C14, the claim as stated fails: on the store of `test_filtering`, with the format-valid
bounds `2025-05-03` and `2025-05-01` entered in that order, `countByDateRange` returns 0 while
the production `filterByDateRange` swaps the bounds and selects three records. -/
theorem C14_harness_count_differs_on_reversed_bounds :
    WF filteringStore ∧ isValidDate "2025-05-03" = true ∧ isValidDate "2025-05-01" = true ∧
    TestableExpenseTracker.countByDateRange filteringStore "2025-05-03" "2025-05-01"
      = some 0 ∧
    (ExpenseTracker.filterByDateRange filteringStore "2025-05-03" "2025-05-01").map
      (fun r => r.lines.length) = some 3 :=
  ⟨WF_ofList _ _ (by decide), by decide, by decide, by decide!, by decide!⟩

/-- C14 as amended. For every stored sequence of records and every two date strings,
`countByDateRange(start, end)` equals the number of records that the production
`filterByDateRange` selects for the same records and bounds when `start <= end` as strings;
when `start > end` the harness, which has no swap step, returns 0, and it is
`countByDateRange(end, start)` that equals the number selected by the production filter. -/
theorem C14_harness_count_agrees_on_ordered_bounds (t : Tracker) (startDate endDate : String)
    (hwf : WF t) :
    ∃ r, ExpenseTracker.filterByDateRange t startDate endDate = some r ∧
      (startDate ≤ endDate →
        TestableExpenseTracker.countByDateRange t startDate endDate = some r.lines.length) ∧
      (endDate < startDate →
        TestableExpenseTracker.countByDateRange t startDate endDate = some 0 ∧
        TestableExpenseTracker.countByDateRange t endDate startDate
          = some r.lines.length) := by
  refine ⟨_, hwf.filterByDateRange_eq startDate endDate, ?_, ?_⟩
  · intro hle
    rw [hwf.countByDateRange_eq, min_eq_left hle, max_eq_right hle]
  · intro hlt
    have hle : endDate ≤ startDate := le_of_lt hlt
    refine ⟨?_, ?_⟩
    · rw [hwf.countByDateRange_eq]
      have hnil : (records t).filter (fun e =>
          decide (startDate ≤ e.date ∧ e.date ≤ endDate)) = [] := by
        rw [List.filter_eq_nil_iff]
        intro e _ he
        simp only [decide_eq_true_eq] at he
        exact absurd (le_trans he.1 he.2) (not_le.2 hlt)
      rw [hnil]; rfl
    · rw [hwf.countByDateRange_eq, min_eq_right hle, max_eq_left hle]

/-- C14 as amended, on the store of `test_filtering` with the bounds of its first range test
(3 records) and with the same bounds reversed (0 against 3). -/
theorem C14_harness_count_agrees_on_ordered_bounds_witness :
    WF filteringStore ∧ "2025-05-01" ≤ "2025-05-03" ∧
    TestableExpenseTracker.countByDateRange filteringStore "2025-05-01" "2025-05-03"
      = some 3 ∧
    (∃ r, ExpenseTracker.filterByDateRange filteringStore "2025-05-01" "2025-05-03" = some r ∧
      ("2025-05-01" ≤ "2025-05-03" →
        TestableExpenseTracker.countByDateRange filteringStore "2025-05-01" "2025-05-03"
          = some r.lines.length) ∧
      ("2025-05-03" < "2025-05-01" →
        TestableExpenseTracker.countByDateRange filteringStore "2025-05-01" "2025-05-03"
          = some 0 ∧
        TestableExpenseTracker.countByDateRange filteringStore "2025-05-03" "2025-05-01"
          = some r.lines.length)) :=
  ⟨WF_ofList _ _ (by decide), by decide!, by decide!,
    C14_harness_count_agrees_on_ordered_bounds filteringStore "2025-05-01" "2025-05-03"
      (WF_ofList _ _ (by decide))⟩

end ExpenseApp
